import Mathlib

/-!
Verification development for the rust_nbt repository: a shallow embedding in
Lean 4 of the NBT tag model (src/tag.rs), the binary writer (src/write.rs),
the binary reader (src/read.rs) and the tree-to-record binding layer
(src/ser.rs, src/de.rs), together with theorems settling the claims about the
specification.

Modelling conventions:
* bytes are naturals; every byte produced by the embedding is < 256;
* machine integers are Nat (bit patterns, reduced mod 2 to the width) or Int
  (signed values); i8/i16/i32/i64 payloads are stored as their signed values;
* f32/f64 payloads are stored as their raw IEEE-754 bit patterns (Nat), which
  is faithful because byteorder's read_f32/write_f32 are bit-preserving;
* Rust Strings are modelled as their UTF-8 byte lists;
* fallible Rust code returns an Outcome; a Rust panic (unwrap on Err,
  todo!()) is the distinguished Outcome.panicked, kept apart from ordinary
  error values.
-/

namespace RustNbt

/-- Result of running a piece of fallible Rust code: an ordinary return value,
an ordinary error value, or a panic (unwrap / todo!()). -/
inductive Outcome (ε : Type) (α : Type) where
  | ok : α → Outcome ε α
  | err : ε → Outcome ε α
  | panicked : Outcome ε α
deriving DecidableEq

instance : Monad (Outcome ε) where
  pure := .ok
  bind x f := match x with
    | .ok a => f a
    | .err e => .err e
    | .panicked => .panicked

/-- Map over the success value of an Outcome. -/
def Outcome.map (f : α → β) : Outcome ε α → Outcome ε β
  | .ok a => .ok (f a)
  | .err e => .err e
  | .panicked => .panicked

/-- Endian / dialect configuration (enum Endian in src/main.rs, used by
src/read.rs and src/write.rs). -/
inductive Endian where
  | big
  | little
  | littleVarInt
deriving DecidableEq

/-- BedrockHeader flag (With / Without). -/
inductive BedrockHeader where
  | withHeader
  | withoutHeader
deriving DecidableEq

/-- TagId discriminator (src/tag.rs, enum TagId with repr(u8) wire values
0..12 in declaration order). -/
inductive TagId where
  | end_
  | byte
  | short
  | int
  | long
  | float
  | double
  | byteArray
  | string
  | list
  | compound
  | intArray
  | longArray
deriving DecidableEq

/-- Wire byte of a TagId (TagId as u8; repr(u8) assigns 0,1,2,... in order). -/
def TagId.toByte : TagId → Nat
  | .end_ => 0
  | .byte => 1
  | .short => 2
  | .int => 3
  | .long => 4
  | .float => 5
  | .double => 6
  | .byteArray => 7
  | .string => 8
  | .list => 9
  | .compound => 10
  | .intArray => 11
  | .longArray => 12

/-- TagIDError (src/tag.rs). -/
inductive TagIDError where
  | unexpectedEnd
  | unknownType
deriving DecidableEq

/-- TryFrom u8 for TagId (src/tag.rs): bytes 0..12 map to the ids, everything
else is TagIDError.UnknownType. -/
def TagId.tryFromByte (value : Nat) : Except TagIDError TagId :=
  match value with
  | 0 => .ok .end_
  | 1 => .ok .byte
  | 2 => .ok .short
  | 3 => .ok .int
  | 4 => .ok .long
  | 5 => .ok .float
  | 6 => .ok .double
  | 7 => .ok .byteArray
  | 8 => .ok .string
  | 9 => .ok .list
  | 10 => .ok .compound
  | 11 => .ok .intArray
  | 12 => .ok .longArray
  | _ => .error .unknownType

/-- The NBT tag tree (enum Tag in src/tag.rs).  CompoundTag is an IndexMap
(insertion ordered, unique keys); it is modelled as an association list whose
insert operation is insertCompound below.  String payloads and compound keys
are UTF-8 byte lists. -/
inductive Tag where
  | byte (v : Int)
  | short (v : Int)
  | int (v : Int)
  | long (v : Int)
  | float (bits : Nat)
  | double (bits : Nat)
  | byteArray (vs : List Int)
  | string (s : List Nat)
  | list (ts : List Tag)
  | compound (kvs : List (List Nat × Tag))
  | intArray (vs : List Int)
  | longArray (vs : List Int)

/-- Tag::id (src/tag.rs). -/
def Tag.id : Tag → TagId
  | .byte _ => .byte
  | .short _ => .short
  | .int _ => .int
  | .long _ => .long
  | .float _ => .float
  | .double _ => .double
  | .byteArray _ => .byteArray
  | .string _ => .string
  | .list _ => .list
  | .compound _ => .compound
  | .intArray _ => .intArray
  | .longArray _ => .longArray

/-- IndexMap::insert semantics: if the key is present, replace its value in
place (the key keeps its original position); otherwise append the new entry at
the end. -/
def insertCompound (k : List Nat) (v : Tag) : List (List Nat × Tag) → List (List Nat × Tag)
  | [] => [(k, v)]
  | (k', v') :: rest =>
    if k' = k then (k', v) :: rest else (k', v') :: insertCompound k v rest

/-- IndexMap::get semantics: look the key up (keys are unique in the map). -/
def findCompound (k : List Nat) : List (List Nat × Tag) → Option Tag
  | [] => none
  | (k', v') :: rest => if k' = k then some v' else findCompound k rest

/-! Machine-integer helpers. -/

/-- Signed value of a w-bit two's-complement pattern n (n < 2 to the w). -/
def toSigned (w : Nat) (n : Nat) : Int :=
  if n < 2 ^ (w - 1) then (n : Int) else (n : Int) - 2 ^ w

/-- The w-bit two's-complement pattern of a signed value. -/
def toPattern (w : Nat) (v : Int) : Nat :=
  (v % (2 ^ w : Nat)).toNat

/-- Little-endian byte list of the low 8*k bits of v. -/
def leBytes : Nat → Nat → List Nat
  | 0, _ => []
  | k + 1, v => (v % 256) :: leBytes k (v / 256)

/-- Big-endian byte list of the low 8*k bits of v. -/
def beBytes (k v : Nat) : List Nat :=
  (leBytes k v).reverse

/-! ## Binary writer (src/write.rs)

Writing into a Cursor over a Vec never yields an io::Error, so every helper
below is a pure byte-list producer; the only fallible step of the writer is
the StorageVersion lookup for the Bedrock header, and write_root returns an
Except accordingly. -/

/-- WriteError (src/write.rs); the IoError variant is unreachable when writing
into a Vec and is omitted. -/
inductive WriteError where
  | expectedInt
  | expectedCompound
  | expectedStorageVersion
deriving DecidableEq

/-- write_unsigned_byte. -/
def writeUnsignedByte (value : Nat) : List Nat :=
  [value % 256]

/-- write_tag_id: the TagId as one u8. -/
def writeTagId (tagId : TagId) : List Nat :=
  writeUnsignedByte tagId.toByte

/-- write_byte (i8). -/
def writeByte (value : Int) : List Nat :=
  [toPattern 8 value]

/-- write_unsigned_short (u16): big-endian for Big, little-endian for Little
and LittleVarInt. -/
def writeUnsignedShort (endian : Endian) (value : Nat) : List Nat :=
  match endian with
  | .big => beBytes 2 value
  | .little => leBytes 2 value
  | .littleVarInt => leBytes 2 value

/-- write_short (i16). -/
def writeShort (endian : Endian) (value : Int) : List Nat :=
  match endian with
  | .big => beBytes 2 (toPattern 16 value)
  | .little => leBytes 2 (toPattern 16 value)
  | .littleVarInt => leBytes 2 (toPattern 16 value)

/-- write_int (i32): note that the LittleVarInt arm writes a fixed-width
little-endian i32, exactly as the source does. -/
def writeInt (endian : Endian) (value : Int) : List Nat :=
  match endian with
  | .big => beBytes 4 (toPattern 32 value)
  | .little => leBytes 4 (toPattern 32 value)
  | .littleVarInt => leBytes 4 (toPattern 32 value)

/-- write_long (i64): the LittleVarInt arm writes a fixed-width little-endian
i64, exactly as the source does. -/
def writeLong (endian : Endian) (value : Int) : List Nat :=
  match endian with
  | .big => beBytes 8 (toPattern 64 value)
  | .little => leBytes 8 (toPattern 64 value)
  | .littleVarInt => leBytes 8 (toPattern 64 value)

/-- write_float (f32 bit pattern). -/
def writeFloat (endian : Endian) (bits : Nat) : List Nat :=
  match endian with
  | .big => beBytes 4 bits
  | .little => leBytes 4 bits
  | .littleVarInt => leBytes 4 bits

/-- write_double (f64 bit pattern). -/
def writeDouble (endian : Endian) (bits : Nat) : List Nat :=
  match endian with
  | .big => beBytes 8 bits
  | .little => leBytes 8 bits
  | .littleVarInt => leBytes 8 bits

/-- Rust usize as i32 (a wrapping cast): signed value of the low 32 bits. -/
def usizeToI32 (n : Nat) : Int :=
  toSigned 32 (n % 2 ^ 32)

/-- write_string: the length is value.len() as u16 (a wrapping cast, so the
emitted prefix is the byte length mod 2 to the 16) followed by the raw
bytes; every dialect uses the fixed-width u16 prefix. -/
def writeString (endian : Endian) (value : List Nat) : List Nat :=
  writeUnsignedShort endian (value.length % 2 ^ 16) ++ value

/-- write_byte_array: length as i32 (value.0.len() as i32) then elements. -/
def writeByteArray (endian : Endian) (value : List Int) : List Nat :=
  writeInt endian (usizeToI32 value.length) ++ value.flatMap writeByte

/-- write_int_array. -/
def writeIntArray (endian : Endian) (value : List Int) : List Nat :=
  writeInt endian (usizeToI32 value.length) ++ value.flatMap (writeInt endian)

/-- write_long_array. -/
def writeLongArray (endian : Endian) (value : List Int) : List Nat :=
  writeInt endian (usizeToI32 value.length) ++ value.flatMap (writeLong endian)

mutual

/-- write_tag. -/
def writeTag (endian : Endian) : Tag → List Nat
  | .byte v => writeByte v
  | .short v => writeShort endian v
  | .int v => writeInt endian v
  | .long v => writeLong endian v
  | .float bits => writeFloat endian bits
  | .double bits => writeDouble endian bits
  | .byteArray vs => writeByteArray endian vs
  | .string s => writeString endian s
  | .list ts => writeList endian ts
  | .compound kvs => writeCompoundEntries endian kvs ++ writeTagId .end_
  | .intArray vs => writeIntArray endian vs
  | .longArray vs => writeLongArray endian vs
termination_by structural t => t

/-- write_list: a non-empty list emits the first element's TagId, the length
as i32 and the elements; an empty list emits TagId End and length 0. -/
def writeList (endian : Endian) : List Tag → List Nat
  | [] => writeTagId .end_ ++ writeInt endian 0
  | t :: ts =>
    writeTagId t.id ++ writeInt endian (usizeToI32 (t :: ts).length) ++
      (writeTag endian t ++ writeListElems endian ts)
termination_by structural ts => ts

/-- Elements of a list, in order. -/
def writeListElems (endian : Endian) : List Tag → List Nat
  | [] => []
  | t :: ts => writeTag endian t ++ writeListElems endian ts
termination_by structural ts => ts

/-- write_compound's loop: for each entry in insertion order, the entry's
TagId, its name string and its payload. -/
def writeCompoundEntries (endian : Endian) : List (List Nat × Tag) → List Nat
  | [] => []
  | (name, t) :: rest =>
    writeTagId t.id ++ writeString endian name ++ writeTag endian t ++
      writeCompoundEntries endian rest
termination_by structural kvs => kvs

end

/-- StorageVersion as UTF-8 bytes. -/
def storageVersionKey : List Nat :=
  [83, 116, 111, 114, 97, 103, 101, 86, 101, 114, 115, 105, 111, 110]

/-- get_storage_version (src/write.rs): the root must be a Compound holding an
Int field named StorageVersion. -/
def getStorageVersion (data : Tag) : Except WriteError Int :=
  match data with
  | .compound tag =>
    match findCompound storageVersionKey tag with
    | none => .error .expectedStorageVersion
    | some (.int v) => .ok v
    | some _ => .error .expectedInt
  | _ => .error .expectedCompound

/-- write_bedrock_header: storage version as u32 little-endian followed by the
payload length as u32 little-endian (payload_len is an i32, written as u32,
so only its low 32 bits survive). -/
def writeBedrockHeader (data : Tag) (payloadLen : Int) : Except WriteError (List Nat) := do
  let storageVersion ← getStorageVersion data
  pure (leBytes 4 (toPattern 32 storageVersion) ++ leBytes 4 (toPattern 32 payloadLen))

/-- write_root: optional 8-byte header space, the root TagId, the root name
string, the root payload; with the header enabled the reserved bytes are
overwritten with write_bedrock_header where payload_len is
(total_len - 8) as i32 (a wrapping cast). -/
def writeRoot (tag : Tag) (rootName : List Nat) (endian : Endian)
    (header : BedrockHeader) : Except WriteError (List Nat) :=
  let body := writeTagId tag.id ++ writeString endian rootName ++ writeTag endian tag
  match header with
  | .withoutHeader => .ok body
  | .withHeader => do
    let totalLen := 8 + body.length
    let payloadLen : Int := usizeToI32 (totalLen - 8)
    let hdr ← writeBedrockHeader tag payloadLen
    pure (hdr ++ body)

/-! ## Binary reader (src/read.rs)

Each reading helper consumes a byte list and returns the parsed value together
with the remaining bytes.  A failed fixed-width read (truncated input) is the
IoError outcome.  String::from_utf8(...).unwrap() in read_string panics on
invalid UTF-8; this is the Outcome.panicked result.  The recursive tag reader
takes a fuel argument so that the recursion is structural; read_root passes
fuel exceeding anything the input can consume, and the artificial
ReadError.fuel outcome is unreachable there. -/

/-- ReadError (src/read.rs).  The two TagIDError cases are inlined; fuel is
the artificial out-of-fuel marker of the embedding. -/
inductive ReadError where
  | ioError
  | tagUnexpectedEnd
  | tagUnknownType
  | varIntRange
  | varLongRange
  | fuel
deriving DecidableEq


/-- read_unsigned_byte (read_u8). -/
def readUnsignedByte : List Nat → Outcome ReadError (Nat × List Nat)
  | [] => .err .ioError
  | b :: rest => .ok (b, rest)

/-- read_byte (i8). -/
def readByte (bytes : List Nat) : Outcome ReadError (Int × List Nat) :=
  (readUnsignedByte bytes).map (fun (b, rest) => (toSigned 8 b, rest))

/-- read_tag_id: a u8 converted through TagId::try_from. -/
def readTagIdByte (bytes : List Nat) : Outcome ReadError (TagId × List Nat) :=
  match readUnsignedByte bytes with
  | .ok (b, rest) =>
    match TagId.tryFromByte b with
    | .ok tid => .ok (tid, rest)
    | .error .unexpectedEnd => .err .tagUnexpectedEnd
    | .error .unknownType => .err .tagUnknownType
  | .err e => .err e
  | .panicked => .panicked

/-- read_unsigned_short (u16): big-endian for Big, little-endian otherwise. -/
def readUnsignedShort (endian : Endian) : List Nat → Outcome ReadError (Nat × List Nat)
  | a :: b :: rest =>
    match endian with
    | .big => .ok (a * 256 + b, rest)
    | .little => .ok (b * 256 + a, rest)
    | .littleVarInt => .ok (b * 256 + a, rest)
  | _ => .err .ioError

/-- read_short (i16). -/
def readShort (endian : Endian) (bytes : List Nat) : Outcome ReadError (Int × List Nat) :=
  (readUnsignedShort endian bytes).map (fun (p, rest) => (toSigned 16 p, rest))

/-- Fixed-width little-endian pattern of n bytes. -/
def readLePattern (n : Nat) : List Nat → Outcome ReadError (Nat × List Nat) :=
  match n with
  | 0 => fun bytes => .ok (0, bytes)
  | k + 1 => fun bytes =>
    match bytes with
    | [] => .err .ioError
    | b :: rest => (readLePattern k rest).map (fun (p, r) => (b + 256 * p, r))

/-- Fixed-width big-endian pattern of n bytes (the little-endian pattern of
the reversed prefix). -/
def readBePattern (n : Nat) (bytes : List Nat) : Outcome ReadError (Nat × List Nat) :=
  if bytes.length < n then .err .ioError
  else (readLePattern n ((bytes.take n).reverse)).map (fun (p, _) => (p, bytes.drop n))

/-- The loop of read_var_int (src/read.rs, used for string lengths in the
LittleVarInt dialect): a little-endian base-128 accumulation into an i32 with
7 payload bits per byte; after each continuation shift grows by 7 and the
loop fails with VarIntRange once shift reaches 32.  The accumulator is the
32-bit pattern of the Rust i32; shifts here never reach 32, so no shift
masking is needed. -/
def readVarIntLoop (acc shift : Nat) : List Nat → Outcome ReadError (Nat × List Nat)
  | [] => .err .ioError
  | b :: rest =>
    let acc' := acc ||| (((b &&& 0x7F) <<< shift) % 2 ^ 32)
    if b &&& 0x80 = 0 then .ok (acc', rest)
    else if shift + 7 ≥ 32 then .err .varIntRange
    else readVarIntLoop acc' (shift + 7) rest

/-- read_var_int: the loop from accumulator 0 and shift 0; the i32 result is
the signed reading of the accumulated pattern. -/
def readVarInt (bytes : List Nat) : Outcome ReadError (Int × List Nat) :=
  (readVarIntLoop 0 0 bytes).map (fun (p, rest) => (toSigned 32 p, rest))

/-- The accumulation loop shared by read_var_int_zig_zag: an i32 accumulator
(32-bit pattern) with the loop bound shift > 63; Rust's release-mode shift
semantics mask the shift amount by the width, hence the mod 32 on the shift
and the mod 2 to the 32 on the shifted payload. -/
def readVarIntZigZagLoop (acc shift : Nat) : List Nat → Outcome ReadError (Nat × List Nat)
  | [] => .err .ioError
  | b :: rest =>
    let acc' := acc ||| (((b &&& 0x7F) <<< (shift % 32)) % 2 ^ 32)
    if b &&& 0x80 = 0 then .ok (acc', rest)
    else if shift + 7 > 63 then .err .varIntRange
    else readVarIntZigZagLoop acc' (shift + 7) rest

/-- Arithmetic right shift of a w-bit two's-complement pattern (sign bit
replicated into the vacated high positions). -/
def sar (w : Nat) (n k : Nat) : Nat :=
  if n < 2 ^ (w - 1) then n >>> k else (n >>> k) ||| (2 ^ w - 2 ^ (w - k))

/-- Logical shift left inside a w-bit word. -/
def shlWrap (w : Nat) (n k : Nat) : Nat :=
  (n <<< k) % 2 ^ w

/-- The final line of read_var_int_zig_zag on the accumulated i32 pattern r:
the pattern of ((((result shl 31) sar 31) xor result) sar 1) xor
(result and (1 shl 31)), all in i32 arithmetic. -/
def zigZagFinal32 (r : Nat) : Nat :=
  (sar 32 ((sar 32 (shlWrap 32 r 31) 31) ^^^ r) 1) ^^^ (r &&& shlWrap 32 1 31)

/-- read_var_int_zig_zag: accumulate, then apply the sign-fixing line. -/
def readVarIntZigZag (bytes : List Nat) : Outcome ReadError (Int × List Nat) :=
  (readVarIntZigZagLoop 0 0 bytes).map
    (fun (r, rest) => (toSigned 32 (zigZagFinal32 r), rest))

/-- The accumulation loop of read_var_long_zig_zag: a u64 accumulator with
the same shift > 63 bound; shifts stay below 64 here so only the value
wrap of the u64 shift is modelled. -/
def readVarLongZigZagLoop (acc shift : Nat) : List Nat → Outcome ReadError (Nat × List Nat)
  | [] => .err .ioError
  | b :: rest =>
    let acc' := acc ||| (((b &&& 0x7F) <<< shift) % 2 ^ 64)
    if b &&& 0x80 = 0 then .ok (acc', rest)
    else if shift + 7 > 63 then .err .varLongRange
    else readVarLongZigZagLoop acc' (shift + 7) rest

/-- The final line of read_var_long_zig_zag on the accumulated u64 pattern:
((result shr 1) as i64) xor (-((result and 1) as i64)), as a 64-bit
pattern. -/
def zigZagFinal64 (r : Nat) : Nat :=
  (r >>> 1) ^^^ toPattern 64 (-(toSigned 64 (r &&& 1)))

/-- read_var_long_zig_zag. -/
def readVarLongZigZag (bytes : List Nat) : Outcome ReadError (Int × List Nat) :=
  (readVarLongZigZagLoop 0 0 bytes).map
    (fun (r, rest) => (toSigned 64 (zigZagFinal64 r), rest))

/-- read_int: fixed-width i32 for Big and Little, zig-zag varint for
LittleVarInt. -/
def readInt (endian : Endian) (bytes : List Nat) : Outcome ReadError (Int × List Nat) :=
  match endian with
  | .big => (readBePattern 4 bytes).map (fun (p, rest) => (toSigned 32 p, rest))
  | .little => (readLePattern 4 bytes).map (fun (p, rest) => (toSigned 32 p, rest))
  | .littleVarInt => readVarIntZigZag bytes

/-- read_long: fixed-width i64 for Big and Little, zig-zag varint for
LittleVarInt. -/
def readLong (endian : Endian) (bytes : List Nat) : Outcome ReadError (Int × List Nat) :=
  match endian with
  | .big => (readBePattern 8 bytes).map (fun (p, rest) => (toSigned 64 p, rest))
  | .little => (readLePattern 8 bytes).map (fun (p, rest) => (toSigned 64 p, rest))
  | .littleVarInt => readVarLongZigZag bytes

/-- read_float: a fixed-width 4-byte IEEE-754 pattern in every dialect. -/
def readFloat (endian : Endian) (bytes : List Nat) : Outcome ReadError (Nat × List Nat) :=
  match endian with
  | .big => readBePattern 4 bytes
  | .little => readLePattern 4 bytes
  | .littleVarInt => readLePattern 4 bytes

/-- read_double: a fixed-width 8-byte IEEE-754 pattern in every dialect. -/
def readDouble (endian : Endian) (bytes : List Nat) : Outcome ReadError (Nat × List Nat) :=
  match endian with
  | .big => readBePattern 8 bytes
  | .little => readLePattern 8 bytes
  | .littleVarInt => readLePattern 8 bytes

/-- Rust i32-to-usize cast (64-bit target): sign-extend to 64 bits. -/
def i32AsUsize (v : Int) : Nat :=
  toPattern 64 v

/-- The length read shared by read_byte_array, read_list, read_int_array and
read_long_array (each repeats this match in the source): zig-zag varint in
LittleVarInt, read_int otherwise, cast to usize. -/
def readArrayLen (endian : Endian) (bytes : List Nat) : Outcome ReadError (Nat × List Nat) :=
  match endian with
  | .littleVarInt => (readVarIntZigZag bytes).map (fun (v, rest) => (i32AsUsize v, rest))
  | _ => (readInt endian bytes).map (fun (v, rest) => (i32AsUsize v, rest))

/-- Standard UTF-8 validity of a byte list (String::from_utf8 succeeds). -/
def validUtf8 : List Nat → Bool
  | [] => true
  | b :: rest =>
    if b < 0x80 then validUtf8 rest
    else if 0xC2 ≤ b ∧ b ≤ 0xDF then
      match rest with
      | c :: r => 0x80 ≤ c ∧ c ≤ 0xBF ∧ validUtf8 r
      | _ => false
    else if b = 0xE0 then
      match rest with
      | c :: d :: r => 0xA0 ≤ c ∧ c ≤ 0xBF ∧ 0x80 ≤ d ∧ d ≤ 0xBF ∧ validUtf8 r
      | _ => false
    else if (0xE1 ≤ b ∧ b ≤ 0xEC) ∨ b = 0xEE ∨ b = 0xEF then
      match rest with
      | c :: d :: r => 0x80 ≤ c ∧ c ≤ 0xBF ∧ 0x80 ≤ d ∧ d ≤ 0xBF ∧ validUtf8 r
      | _ => false
    else if b = 0xED then
      match rest with
      | c :: d :: r => 0x80 ≤ c ∧ c ≤ 0x9F ∧ 0x80 ≤ d ∧ d ≤ 0xBF ∧ validUtf8 r
      | _ => false
    else if b = 0xF0 then
      match rest with
      | c :: d :: e :: r =>
        0x90 ≤ c ∧ c ≤ 0xBF ∧ 0x80 ≤ d ∧ d ≤ 0xBF ∧ 0x80 ≤ e ∧ e ≤ 0xBF ∧ validUtf8 r
      | _ => false
    else if 0xF1 ≤ b ∧ b ≤ 0xF3 then
      match rest with
      | c :: d :: e :: r =>
        0x80 ≤ c ∧ c ≤ 0xBF ∧ 0x80 ≤ d ∧ d ≤ 0xBF ∧ 0x80 ≤ e ∧ e ≤ 0xBF ∧ validUtf8 r
      | _ => false
    else if b = 0xF4 then
      match rest with
      | c :: d :: e :: r =>
        0x80 ≤ c ∧ c ≤ 0x8F ∧ 0x80 ≤ d ∧ d ≤ 0xBF ∧ 0x80 ≤ e ∧ e ≤ 0xBF ∧ validUtf8 r
      | _ => false
    else false

/-- read_string: length is an unsigned varint (read_var_int, then a cast to
usize) in LittleVarInt and a fixed u16 otherwise; then that many bytes are
taken (read_exact, an IoError when the input is shorter) and decoded with
String::from_utf8(...).unwrap(), a panic on invalid UTF-8. -/
def readString (endian : Endian) (bytes : List Nat) : Outcome ReadError ((List Nat) × List Nat) :=
  let lenRead : Outcome ReadError (Nat × List Nat) :=
    match endian with
    | .littleVarInt => (readVarInt bytes).map (fun (v, rest) => (i32AsUsize v, rest))
    | _ => readUnsignedShort endian bytes
  match lenRead with
  | .ok (len, rest) =>
    if rest.length < len then .err .ioError
    else if validUtf8 (rest.take len) then .ok (rest.take len, rest.drop len)
    else .panicked
  | .err e => .err e
  | .panicked => .panicked

/-- read_byte_array: length then that many i8 payloads. -/
def readByteArrayElems : Nat → List Nat → Outcome ReadError ((List Int) × List Nat)
  | 0, bytes => .ok ([], bytes)
  | n + 1, bytes => do
    let (v, rest) ← readByte bytes
    let (vs, rest') ← readByteArrayElems n rest
    pure (v :: vs, rest')

/-- read_int_array / read_long_array element loops. -/
def readIntArrayElems (endian : Endian) : Nat → List Nat → Outcome ReadError ((List Int) × List Nat)
  | 0, bytes => .ok ([], bytes)
  | n + 1, bytes => do
    let (v, rest) ← readInt endian bytes
    let (vs, rest') ← readIntArrayElems endian n rest
    pure (v :: vs, rest')

/-- Element loop of read_long_array. -/
def readLongArrayElems (endian : Endian) : Nat → List Nat → Outcome ReadError ((List Int) × List Nat)
  | 0, bytes => .ok ([], bytes)
  | n + 1, bytes => do
    let (v, rest) ← readLong endian bytes
    let (vs, rest') ← readLongArrayElems endian n rest
    pure (v :: vs, rest')

mutual

/-- read_tag: dispatch on the TagId; fuel only bounds the recursion depth of
the embedding. -/
def readTag : Nat → Endian → TagId → List Nat → Outcome ReadError (Tag × List Nat)
  | 0, _, _, _ => .err .fuel
  | _ + 1, _, .end_, _ => .err .tagUnexpectedEnd
  | _ + 1, _, .byte, bytes => (readByte bytes).map (fun (v, r) => (.byte v, r))
  | _ + 1, e, .short, bytes => (readShort e bytes).map (fun (v, r) => (.short v, r))
  | _ + 1, e, .int, bytes => (readInt e bytes).map (fun (v, r) => (.int v, r))
  | _ + 1, e, .long, bytes => (readLong e bytes).map (fun (v, r) => (.long v, r))
  | _ + 1, e, .float, bytes => (readFloat e bytes).map (fun (v, r) => (.float v, r))
  | _ + 1, e, .double, bytes => (readDouble e bytes).map (fun (v, r) => (.double v, r))
  | _ + 1, e, .byteArray, bytes => do
    let (n, rest) ← readArrayLen e bytes
    let (vs, rest') ← readByteArrayElems n rest
    pure (.byteArray vs, rest')
  | _ + 1, e, .string, bytes => (readString e bytes).map (fun (s, r) => (.string s, r))
  | fuel + 1, e, .list, bytes => do
    let (elemId, rest) ← readTagIdByte bytes
    let (n, rest') ← readArrayLen e rest
    let (ts, rest'') ← readListElems fuel e elemId n rest'
    pure (.list ts, rest'')
  | fuel + 1, e, .compound, bytes => do
    let (kvs, rest) ← readCompoundEntries fuel e [] bytes
    pure (.compound kvs, rest)
  | _ + 1, e, .intArray, bytes => do
    let (n, rest) ← readArrayLen e bytes
    let (vs, rest') ← readIntArrayElems e n rest
    pure (.intArray vs, rest')
  | _ + 1, e, .longArray, bytes => do
    let (n, rest) ← readArrayLen e bytes
    let (vs, rest') ← readLongArrayElems e n rest
    pure (.longArray vs, rest')

/-- Element loop of read_list: n payloads of the given element TagId. -/
def readListElems : Nat → Endian → TagId → Nat → List Nat → Outcome ReadError ((List Tag) × List Nat)
  | 0, _, _, _, _ => .err .fuel
  | _ + 1, _, _, 0, bytes => .ok ([], bytes)
  | fuel + 1, e, tid, n + 1, bytes => do
    let (t, rest) ← readTag fuel e tid bytes
    let (ts, rest') ← readListElems fuel e tid n rest
    pure (t :: ts, rest')

/-- The loop of read_compound: entries are read until an End TagId and are
accumulated with IndexMap::insert. -/
def readCompoundEntries :
    Nat → Endian → List (List Nat × Tag) → List Nat → Outcome ReadError ((List (List Nat × Tag) × List Nat))
  | 0, _, _, _ => .err .fuel
  | fuel + 1, e, acc, bytes => do
    let (tid, rest) ← readTagIdByte bytes
    if tid = .end_ then pure (acc, rest)
    else do
      let (name, rest') ← readString e rest
      let (t, rest'') ← readTag fuel e tid rest'
      readCompoundEntries fuel e (insertCompound name t acc) rest''

end

/-- read_bedrock_header: two u32 little-endian words. -/
def readBedrockHeader (bytes : List Nat) : Outcome ReadError ((Nat × Nat) × List Nat) := do
  let (sv, rest) ← readLePattern 4 bytes
  let (pl, rest') ← readLePattern 4 rest
  pure ((sv, pl), rest')

/-- Steps 1 to 4 of read_root, returning the root name together with the root
tag (read_root itself prints and discards the name). -/
def readRootNamed (data : List Nat) (endian : Endian) (header : BedrockHeader) :
    Outcome ReadError (List Nat × Tag) := do
  let afterHeader ←
    match header with
    | .withHeader => (readBedrockHeader data).map (fun (_, rest) => rest)
    | .withoutHeader => pure data
  let (rootTagId, rest) ← readTagIdByte afterHeader
  let (rootName, rest') ← readString endian rest
  let (t, _) ← readTag (data.length + 1) endian rootTagId rest'
  pure (rootName, t)

/-- read_root: parses the optional header, the root TagId, the root name and
the root payload, and returns the root tag (trailing bytes are ignored, as in
the source). -/
def readRoot (data : List Nat) (endian : Endian) (header : BedrockHeader) :
    Outcome ReadError Tag :=
  (readRootNamed data endian header).map (fun (_, t) => t)

/-! ## Binding layer (src/ser.rs, src/de.rs)

The binding layer is driven by serde: user types declare field names and
shapes and the serde-derive glue walks them, calling the serializer of
src/ser.rs and the deserializer of src/de.rs.  The derive glue is generated
code outside this repository; following the specification (section 4.4) the
declared user types are modelled as a universe of shapes and values, and the
walk is modelled from the spec on top of the faithful per-shape behaviour of
ser.rs and de.rs.  The list and field collections are their own inductive
types so that all recursion is structural. -/

mutual

/-- Declared user-type shapes admitted to the binding layer, plus the shapes
the source marks TODO (modelled from the spec, section 4.4). -/
inductive Shape where
  | bool
  | i8
  | i16
  | i32
  | i64
  | f32
  | f64
  | str
  | seq (elem : Shape)
  | record (fields : Fields)
  | byteArrayW
  | intArrayW
  | longArrayW
  | u8
  | u16
  | u32
  | u64
  | char
  | option (elem : Shape)
  | unitStruct
  | enumeration
  | bytesView

/-- Declared fields of a record shape: names with shapes, in declaration
order. -/
inductive Fields where
  | nil
  | cons (name : List Nat) (s : Shape) (rest : Fields)

end

mutual

/-- Values of the user-type universe.  Numeric payloads are the signed values
(i8..i64) or IEEE-754 bit patterns (f32/f64); text is UTF-8 bytes. -/
inductive Value where
  | bool (b : Bool)
  | i8 (v : Int)
  | i16 (v : Int)
  | i32 (v : Int)
  | i64 (v : Int)
  | f32 (bits : Nat)
  | f64 (bits : Nat)
  | str (s : List Nat)
  | seq (vs : Values)
  | record (fields : FieldVals)
  | byteArrayW (vs : List Int)
  | intArrayW (vs : List Int)
  | longArrayW (vs : List Int)

/-- A sequence of values. -/
inductive Values where
  | nil
  | cons (v : Value) (rest : Values)

/-- Record field values: names with values, in declaration order. -/
inductive FieldVals where
  | nil
  | cons (name : List Nat) (v : Value) (rest : FieldVals)

end

/-- Names of declared fields, in order. -/
def Fields.names : Fields → List (List Nat)
  | .nil => []
  | .cons n _ rest => n :: rest.names

/-- Look up the declared shape of a field by its (wire) name; first match. -/
def Fields.findShape (k : List Nat) : Fields → Option Shape
  | .nil => none
  | .cons n s rest => if n = k then some s else rest.findShape k

/-- Names of record field values, in order. -/
def FieldVals.names : FieldVals → List (List Nat)
  | .nil => []
  | .cons n _ rest => n :: rest.names

/-- No two entries of the name list coincide. -/
def nodupNames : List (List Nat) → Bool
  | [] => true
  | n :: rest => !(rest.contains n) && nodupNames rest

mutual

/-- Shapes the binding layer supports end to end (both directions succeed
without hitting a source TODO): the spec's section 4.4 table restricted to
what ser.rs and de.rs implement; record field names must not repeat. -/
def supportedB : Shape → Bool
  | .bool => true
  | .i8 => true
  | .i16 => true
  | .i32 => true
  | .i64 => true
  | .f32 => true
  | .f64 => true
  | .str => true
  | .seq s => supportedB s
  | .record fs => nodupNames fs.names && supportedFields fs
  | .byteArrayW => true
  | .intArrayW => true
  | .longArrayW => true
  | _ => false

/-- All declared field shapes are supported. -/
def supportedFields : Fields → Bool
  | .nil => true
  | .cons _ s rest => supportedB s && supportedFields rest

end

mutual

/-- A value inhabits a declared shape. -/
def conformsB : Shape → Value → Bool
  | .bool, .bool _ => true
  | .i8, .i8 _ => true
  | .i16, .i16 _ => true
  | .i32, .i32 _ => true
  | .i64, .i64 _ => true
  | .f32, .f32 _ => true
  | .f64, .f64 _ => true
  | .str, .str _ => true
  | .seq s, .seq vs => conformsValues s vs
  | .record fs, .record fvs => conformsFields fs fvs
  | .byteArrayW, .byteArrayW _ => true
  | .intArrayW, .intArrayW _ => true
  | .longArrayW, .longArrayW _ => true
  | _, _ => false

/-- Every element of the sequence inhabits the element shape. -/
def conformsValues (s : Shape) : Values → Bool
  | .nil => true
  | .cons v rest => conformsB s v && conformsValues s rest

/-- Field values carry exactly the declared names in declaration order, each
value inhabiting its declared shape. -/
def conformsFields : Fields → FieldVals → Bool
  | .nil, .nil => true
  | .cons n s fs, .cons n' v fvs => n = n' && conformsB s v && conformsFields fs fvs
  | _, _ => false

end

mutual

/-- to_tag (src/ser.rs) composed with the derive-generated Serialize of the
declared user type (the traversal is modelled from the spec, section 4.4;
the per-shape tags are the arms of impl Serializer for TagSerializer):
booleans become Byte 0 or 1, i8..i64 become Byte/Short/Int/Long, floats keep
their bit patterns in Float/Double, text becomes String, sequences become
List, records become Compound built with IndexMap::insert in declaration
order, and the distinguished ByteArray/IntArray/LongArray wrappers become the
corresponding array tags. -/
def toTag : Value → Tag
  | .bool b => .byte (if b then 1 else 0)
  | .i8 v => .byte v
  | .i16 v => .short v
  | .i32 v => .int v
  | .i64 v => .long v
  | .f32 bits => .float bits
  | .f64 bits => .double bits
  | .str s => .string s
  | .seq vs => .list (toTagValues vs)
  | .record fvs => .compound (toTagFields fvs [])
  | .byteArrayW vs => .byteArray vs
  | .intArrayW vs => .intArray vs
  | .longArrayW vs => .longArray vs
termination_by structural v => v

/-- SerializeSeq: elements in order. -/
def toTagValues : Values → List Tag
  | .nil => []
  | .cons v rest => toTag v :: toTagValues rest
termination_by structural vs => vs

/-- SerializeStruct: each field inserted into the growing IndexMap under its
declared name, in declaration order. -/
def toTagFields : FieldVals → List (List Nat × Tag) → List (List Nat × Tag)
  | .nil, acc => acc
  | .cons n v rest, acc => toTagFields rest (insertCompound n (toTag v) acc)
termination_by structural fvs => fvs

end

/-- Pairs a record's field values with their serialized tags, in order. -/
def fieldPairs : FieldVals → List (List Nat × Tag)
  | .nil => []
  | .cons n v rest => (n, toTag v) :: fieldPairs rest

/-- DeserializeError (src/de.rs); custom stands for the Custom(String)
variant produced by serde glue outside this repository. -/
inductive DeError where
  | expectedByte
  | expectedBoolean
  | expectedShort
  | expectedInt
  | expectedLong
  | expectedFloat
  | expectedDouble
  | expectedByteArray
  | expectedString
  | expectedList
  | expectedCompound
  | expectedIntArray
  | expectedLongArray
  | valueMissing
  | custom
deriving DecidableEq

/-- Elements of a Tag list driven into an i8 seed (ListAccess feeding
deserialize_i8): every element must be a Byte tag. -/
def i8Elems : List Tag → Outcome DeError (List Int)
  | [] => .ok []
  | .byte v :: ts => (i8Elems ts).map (v :: ·)
  | _ :: _ => .err .expectedByte

/-- Elements of a Tag list driven into an i32 seed (deserialize_i32). -/
def i32Elems : List Tag → Outcome DeError (List Int)
  | [] => .ok []
  | .int v :: ts => (i32Elems ts).map (v :: ·)
  | _ :: _ => .err .expectedInt

/-- Elements of a Tag list driven into an i64 seed (deserialize_i64). -/
def i64Elems : List Tag → Outcome DeError (List Int)
  | [] => .ok []
  | .long v :: ts => (i64Elems ts).map (v :: ·)
  | _ :: _ => .err .expectedLong

/-- List Int to Values helpers for the numeric-array seq arms. -/
def i8Values : List Int → Values
  | [] => .nil
  | v :: vs => .cons (.i8 v) (i8Values vs)

/-- IntArray elements as i32 values. -/
def i32Values : List Int → Values
  | [] => .nil
  | v :: vs => .cons (.i32 v) (i32Values vs)

/-- LongArray elements as i64 values. -/
def i64Values : List Int → Values
  | [] => .nil
  | v :: vs => .cons (.i64 v) (i64Values vs)

/-- Every declared name occurs among the walked field values. -/
def allPresent (fs : Fields) (fvs : FieldVals) : Bool :=
  match fs with
  | .nil => true
  | .cons n _ rest => fvs.names.contains n && allPresent rest fvs

/-- Byte payload consumed as a boolean (deserialize_bool): 0 and 1 are the
booleans, any other byte is the ExpectedBoolean error. -/
def byteAsBool (v : Int) : Outcome DeError Value :=
  if v = 0 then .ok (.bool false)
  else if v = 1 then .ok (.bool true)
  else .err .expectedBoolean

/-- ByteArray payload consumed as a plain sequence (deserialize_seq): the
elements are fed to the element seed as i8; only an i8 element shape accepts
directly, anything else goes through serde numeric glue outside this
repository (modelled as the custom error). -/
def seqByteArrayArm (s : Shape) (vs : List Int) : Outcome DeError Value :=
  match s with
  | .i8 => .ok (.seq (i8Values vs))
  | _ => .err .custom

/-- IntArray payload consumed as a plain sequence. -/
def seqIntArrayArm (s : Shape) (vs : List Int) : Outcome DeError Value :=
  match s with
  | .i32 => .ok (.seq (i32Values vs))
  | _ => .err .custom

/-- LongArray payload consumed as a plain sequence. -/
def seqLongArrayArm (s : Shape) (vs : List Int) : Outcome DeError Value :=
  match s with
  | .i64 => .ok (.seq (i64Values vs))
  | _ => .err .custom

mutual

/-- from_tag (src/de.rs) composed with the derive-generated Deserialize of
the declared target shape (the derive traversal is modelled from the spec,
section 4.4; each arm mirrors the corresponding method of impl Deserializer
for TagDeserializer).  The u8..u64, char, option, unit-struct, enum and raw
byte-view targets hit a todo!() in the source and panic.  A record drives the
Compound walk in tree order, resolving each key against the declared fields
(a key that matches no declared field is consumed through
deserialize_ignored_any, a todo!() panic); declared fields that never appear
are the ValueMissing error. -/
def fromTag : Shape → Tag → Outcome DeError Value
  | .bool, .byte v => byteAsBool v
  | .bool, _ => .err .expectedBoolean
  | .i8, .byte v => .ok (.i8 v)
  | .i8, _ => .err .expectedByte
  | .i16, .short v => .ok (.i16 v)
  | .i16, _ => .err .expectedShort
  | .i32, .int v => .ok (.i32 v)
  | .i32, _ => .err .expectedInt
  | .i64, .long v => .ok (.i64 v)
  | .i64, _ => .err .expectedLong
  | .f32, .float bits => .ok (.f32 bits)
  | .f32, _ => .err .expectedFloat
  | .f64, .double bits => .ok (.f64 bits)
  | .f64, _ => .err .expectedDouble
  | .str, .string s => .ok (.str s)
  | .str, _ => .err .expectedString
  | .seq s, .list ts => (fromTagList s ts).map .seq
  | .seq s, .byteArray vs => seqByteArrayArm s vs
  | .seq s, .intArray vs => seqIntArrayArm s vs
  | .seq s, .longArray vs => seqLongArrayArm s vs
  | .seq _, _ => .err .expectedList
  | .record fs, .compound kvs => do
    let walked ← fromTagEntries fs kvs
    if allPresent fs walked then pure (.record walked) else .err .valueMissing
  | .record _, _ => .err .expectedCompound
  | .byteArrayW, .byteArray vs => .ok (.byteArrayW vs)
  | .byteArrayW, .list ts => (i8Elems ts).map .byteArrayW
  | .byteArrayW, _ => .err .expectedList
  | .intArrayW, .intArray vs => .ok (.intArrayW vs)
  | .intArrayW, .list ts => (i32Elems ts).map .intArrayW
  | .intArrayW, _ => .err .expectedList
  | .longArrayW, .longArray vs => .ok (.longArrayW vs)
  | .longArrayW, .list ts => (i64Elems ts).map .longArrayW
  | .longArrayW, _ => .err .expectedList
  | .u8, _ => .panicked
  | .u16, _ => .panicked
  | .u32, _ => .panicked
  | .u64, _ => .panicked
  | .char, _ => .panicked
  | .option _, _ => .panicked
  | .unitStruct, _ => .panicked
  | .enumeration, _ => .panicked
  | .bytesView, _ => .panicked
termination_by structural _s t => t

/-- Sequence elements, each deserialized at the element shape. -/
def fromTagList (s : Shape) : List Tag → Outcome DeError Values
  | [] => .ok .nil
  | t :: ts => do
    let v ← fromTag s t
    let vs ← fromTagList s ts
    pure (.cons v vs)
termination_by structural ts => ts

/-- The Compound walk of a record target: entries in tree order, each key
resolved against the declared fields. -/
def fromTagEntries (fs : Fields) : List (List Nat × Tag) → Outcome DeError FieldVals
  | [] => .ok .nil
  | (k, t) :: kvs =>
    match fs.findShape k with
    | none => .panicked
    | some s => do
      let v ← fromTag s t
      let rest ← fromTagEntries fs kvs
      pure (.cons k v rest)
termination_by structural kvs => kvs

end

/-! ## Specification-side models used by refinement claims -/

/-- Modelled from the spec (section 4.2, variable-length integer decoding):
the unsigned varint accumulation loop, 7 payload bits per byte, little-endian,
high bit is the continuation flag; reading past the width bound is a range
error.  The accumulator is an unbounded natural, so the result is the exact
decoded unsigned value U. -/
def specVarLoop (maxShift : Nat) (acc shift : Nat) : List Nat → Outcome ReadError (Nat × List Nat)
  | [] => .err .ioError
  | b :: rest =>
    let acc' := acc ||| ((b &&& 0x7F) <<< shift)
    if b &&& 0x80 = 0 then .ok (acc', rest)
    else if shift + 7 > maxShift then .err .varIntRange
    else specVarLoop maxShift acc' (shift + 7) rest

/-- Modelled from the spec: the decoded unsigned varint U for a w-bit target,
allowing ceil(w/7) bytes (shift bound 7 * (ceil(w/7) - 1)). -/
def decodeVarUnsigned (w : Nat) (bytes : List Nat) : Outcome ReadError (Nat × List Nat) :=
  specVarLoop (7 * ((w + 6) / 7 - 1)) 0 0 bytes

/-- Modelled from the spec: the canonical zig-zag decoding
S = (U shr 1) xor (-(U and 1)) rendered as a w-bit two's-complement pattern
(-(U and 1) at width w is all-ones for odd U and zero for even U). -/
def specZigZagPattern (w : Nat) (U : Nat) : Nat :=
  (U >>> 1) ^^^ (if U % 2 = 1 then 2 ^ w - 1 else 0)

/-- One entry of a wire compound: its TagId, the raw bytes of its name
string, the name those bytes denote, the raw bytes of its payload and the tag
the payload denotes. -/
structure WireEntry where
  tid : TagId
  nameBytes : List Nat
  name : List Nat
  payloadBytes : List Nat
  tag : Tag

/-- Wire form of one compound entry: TagId byte, name string bytes, payload
bytes. -/
def WireEntry.wire (ent : WireEntry) : List Nat :=
  writeTagId ent.tid ++ ent.nameBytes ++ ent.payloadBytes

/-- The entry is well-formed wire data for the dialect: the TagId is not End,
the name bytes parse to the name before any continuation, and the payload
bytes parse to the tag before any continuation, under any fuel of at least
d. -/
def EntryParses (endian : Endian) (d : Nat) (ent : WireEntry) : Prop :=
  ent.tid ≠ .end_ ∧
  (∀ k, readString endian (ent.nameBytes ++ k) = .ok (ent.name, k)) ∧
  (∀ f k, d ≤ f → readTag f endian ent.tid (ent.payloadBytes ++ k) = .ok (ent.tag, k))

/-- Folding the compound entries with IndexMap::insert, as read_compound
does. -/
def foldEntries (es : List WireEntry) (acc : List (List Nat × Tag)) :
    List (List Nat × Tag) :=
  es.foldl (fun m ent => insertCompound ent.name ent.tag m) acc

/-- First-occurrence deduplication of a name sequence: the keys of an
IndexMap built by repeated insert, in order. -/
def firstKeys : List (List Nat) → List (List Nat)
  | [] => []
  | n :: ns => n :: (firstKeys ns).filter (fun m => !(m == n))

/-- The failure condition claimed for the header path of write_root: the root
is not a Compound, or has no StorageVersion entry, or that entry is not an
Int. -/
def storageHeaderBad (t : Tag) : Bool :=
  match t with
  | .compound kvs =>
    match findCompound storageVersionKey kvs with
    | some (.int _) => false
    | some _ => true
    | none => true
  | _ => true

/-- Root tree of the C6 counterexample: a Compound with StorageVersion Int 1
and a ByteArray of 2 to the 32 bytes. -/
abbrev c6BigTree : Tag :=
  .compound [(storageVersionKey, .int 1), ([98], .byteArray (List.replicate (2 ^ 32) 0))]

/-- The header-less body bytes write_root produces for c6BigTree under the
Little dialect with an empty root name. -/
abbrev c6Body : List Nat :=
  writeTagId c6BigTree.id ++ writeString .little [] ++ writeTag .little c6BigTree

end RustNbt

namespace RustNbt

/-! ## Claim theorems -/

/-- C1 (code_bug evidence): in the LittleVarInt dialect read-then-write is
not the identity on well-formed buffers.  The buffer 03 00 01 parses fully
and canonically (root Int tag, empty root name with a varint length, zig-zag
varint payload 01 decoding to -1), yet writing the recovered tag back with
the recovered root name produces 03 00 00 FF FF FF FF, because the writer
has no varint path: it emits a fixed-width u16 string length and a
fixed-width little-endian i32. -/
theorem c1_littleVarInt_roundtrip_fails :
    readRootNamed [3, 0, 1] .littleVarInt .withoutHeader = .ok ([], .int (-1)) ∧
    readRoot [3, 0, 1] .littleVarInt .withoutHeader = .ok (.int (-1)) ∧
    writeRoot (.int (-1)) [] .littleVarInt .withoutHeader =
      .ok [3, 0, 0, 255, 255, 255, 255] ∧
    [3, 0, 0, 255, 255, 255, 255] ≠ [3, 0, 1] :=
  ⟨rfl, rfl, rfl, by decide⟩

/-- C2 (code_bug evidence): with the LittleVarInt dialect the writer emits
fixed-width little-endian bytes everywhere a varint is claimed: write_int 1
gives 01 00 00 00 rather than the zig-zag varint 02, write_long 1 gives eight
fixed bytes rather than 02, and write_string writes a fixed u16 length
(01 00 before the byte of "a") rather than the unsigned varint length 01. -/
theorem c2_writer_fixed_width_in_varint_dialect :
    writeInt .littleVarInt 1 = [1, 0, 0, 0] ∧
    writeLong .littleVarInt 1 = [1, 0, 0, 0, 0, 0, 0, 0] ∧
    writeString .littleVarInt [97] = [1, 0, 97] ∧
    writeList .littleVarInt [] = [0, 0, 0, 0, 0] ∧
    [1, 0, 0, 0] ≠ [2] ∧ ([1, 0, 97] : List Nat) ≠ [1, 97] :=
  ⟨rfl, rfl, rfl, rfl, by decide, by decide⟩

/-- C4 (code_bug evidence): on the buffer 08 00 00 00 01 FF (Big dialect, no
header: a String root with empty root name whose one payload byte FF is not
valid UTF-8) read_root panics through String::from_utf8(...).unwrap() instead
of returning a decoding error value. -/
theorem c4_invalid_utf8_panics :
    readRoot [8, 0, 0, 0, 1, 255] .big .withoutHeader = .panicked ∧
    validUtf8 [255] = false ∧
    (∀ e : ReadError, (Outcome.panicked : Outcome ReadError Tag) ≠ .err e) ∧
    (∀ t : Tag, (Outcome.panicked : Outcome ReadError Tag) ≠ .ok t) :=
  ⟨rfl, rfl, fun _ h => Outcome.noConfusion h, fun _ h => Outcome.noConfusion h⟩

/-- C7: an empty List emits exactly the End TagId byte followed by the length
0 in every dialect, and the tree Compound containing one field named empty
holding an empty List, written with root name empty-string under the Big
dialect without header, is exactly the 17 bytes
0A 00 00 09 00 05 "empty" 00 00 00 00 00 00. -/
theorem c7_empty_list_encoding :
    (∀ e : Endian, writeList e [] = writeTagId .end_ ++ writeInt e 0) ∧
    writeRoot (.compound [([101, 109, 112, 116, 121], .list [])]) [] .big .withoutHeader =
      .ok [10, 0, 0, 9, 0, 5, 101, 109, 112, 116, 121, 0, 0, 0, 0, 0, 0] :=
  ⟨fun e => match e with | .big => rfl | .little => rfl | .littleVarInt => rfl, rfl⟩

/-- Helper: a successful run of the read_var_int loop consumes at least one
byte. -/
theorem readVarIntLoop_consumed :
    ∀ (bs : List Nat) (acc shift v : Nat) (rest : List Nat),
      readVarIntLoop acc shift bs = .ok (v, rest) → rest.length < bs.length := by
  intro bs
  induction bs with
  | nil => intro acc shift v rest h; simp [readVarIntLoop] at h
  | cons b tail ih =>
    intro acc shift v rest h
    simp only [readVarIntLoop] at h
    split at h
    · cases h; simp
    · split at h
      · cases h
      · exact Nat.lt_trans (ih _ _ _ _ h) (by simp)

theorem readUnsignedShort_writeUnsignedShort (e : Endian) (v : Nat) (tail : List Nat)
    (hv : v < 2 ^ 16) :
    readUnsignedShort e (writeUnsignedShort e v ++ tail) = .ok (v, tail) := by
  cases e <;>
    · show readUnsignedShort _ (_ :: _ :: tail) = .ok (v, tail)
      simp only [readUnsignedShort]
      congr 2
      omega

theorem readVarIntLoop_two (lo hi : Nat) (s : List Nat) (p : Nat) (tail : List Nat)
    (h : readVarIntLoop 0 0 (lo :: hi :: s) = .ok (p, tail)) :
    (p < 2 ^ 14 ∧ (tail = hi :: s ∨ tail = s)) ∨ tail.length < s.length := by
  have hb1 : (0 : Nat) ||| ((lo &&& 127) <<< 0) % 2 ^ 32 ≤ 127 := by
    have h1 : lo &&& 127 ≤ 127 := Nat.and_le_right
    have h2 : (lo &&& 127) <<< 0 = lo &&& 127 := Nat.shiftLeft_zero
    have h3 : (0 : Nat) ||| ((lo &&& 127) <<< 0) % 2 ^ 32 = ((lo &&& 127) <<< 0) % 2 ^ 32 :=
      Nat.zero_or _
    have h4 : ((lo &&& 127) <<< 0) % 2 ^ 32 ≤ (lo &&& 127) <<< 0 := Nat.mod_le _ _
    omega
  simp only [readVarIntLoop] at h
  split at h
  · cases h
    exact Or.inl ⟨by omega, Or.inl rfl⟩
  · rw [if_neg (by omega : ¬(0 + 7 ≥ 32))] at h
    split at h
    · cases h
      refine Or.inl ⟨?_, Or.inr rfl⟩
      have h2 : hi &&& 127 ≤ 127 := Nat.and_le_right
      have h3 : (hi &&& 127) <<< (0 + 7) = (hi &&& 127) * 128 := by
        rw [Nat.shiftLeft_eq]
      refine Nat.or_lt_two_pow (by omega) ?_
      have : ((hi &&& 127) <<< (0 + 7)) % 2 ^ 32 ≤ (hi &&& 127) <<< (0 + 7) := Nat.mod_le _ _
      omega
    · rw [if_neg (by omega : ¬(0 + 7 + 7 ≥ 32))] at h
      exact Or.inr (readVarIntLoop_consumed _ _ _ _ _ h)

theorem i32AsUsize_toSigned_small (p : Nat) (hp : p < 2 ^ 31) :
    i32AsUsize (toSigned 32 p) = p := by
  simp only [i32AsUsize, toSigned, toPattern]
  rw [if_pos (by norm_num; omega)]
  omega

theorem c10_string_length_truncation (e : Endian) (s : List Nat)
    (h : 2 ^ 16 ≤ s.length) :
    writeString e s = writeUnsignedShort e (s.length % 2 ^ 16) ++ s ∧
    s.length % 2 ^ 16 ≠ s.length ∧
    ∀ r rest, readString e (writeString e s) = .ok (r, rest) → r ≠ s := by
  have hv : s.length % 2 ^ 16 < 2 ^ 16 := Nat.mod_lt _ (by norm_num)
  refine ⟨rfl, by omega, ?_⟩
  intro r rest hok hrs
  have hlen : r.length < s.length := by
    cases e with
    | big =>
      rw [show writeString .big s = writeUnsignedShort .big (s.length % 2 ^ 16) ++ s from rfl]
        at hok
      simp only [readString, readUnsignedShort_writeUnsignedShort .big _ s hv] at hok
      split at hok
      · cases hok
      · split at hok
        · cases hok
          rw [List.length_take]
          omega
        · cases hok
    | little =>
      rw [show writeString .little s =
            writeUnsignedShort .little (s.length % 2 ^ 16) ++ s from rfl] at hok
      simp only [readString, readUnsignedShort_writeUnsignedShort .little _ s hv] at hok
      split at hok
      · cases hok
      · split at hok
        · cases hok
          rw [List.length_take]
          omega
        · cases hok
    | littleVarInt =>
      rw [show writeString .littleVarInt s =
            (s.length % 2 ^ 16 % 256) :: (s.length % 2 ^ 16 / 256 % 256) :: s from rfl] at hok
      simp only [readString, readVarInt] at hok
      cases hloop : readVarIntLoop 0 0
          ((s.length % 2 ^ 16 % 256) :: (s.length % 2 ^ 16 / 256 % 256) :: s) with
      | ok pt =>
        obtain ⟨p, tail⟩ := pt
        rw [hloop] at hok
        simp only [Outcome.map] at hok
        rcases readVarIntLoop_two _ _ _ _ _ hloop with ⟨hp, htail | htail⟩ | htail
        · subst htail
          rw [i32AsUsize_toSigned_small p (by omega)] at hok
          split at hok
          · cases hok
          · split at hok
            · cases hok
              rw [List.length_take]
              simp only [List.length_cons]
              omega
            · cases hok
        · subst htail
          rw [i32AsUsize_toSigned_small p (by omega)] at hok
          split at hok
          · cases hok
          · split at hok
            · cases hok
              rw [List.length_take]
              omega
            · cases hok
        · split at hok
          · cases hok
          · split at hok
            · cases hok
              rw [List.length_take]
              omega
            · cases hok
      | err e =>
        rw [hloop] at hok
        simp only [Outcome.map] at hok
        cases hok
      | panicked =>
        rw [hloop] at hok
        simp only [Outcome.map] at hok
        cases hok
  exact absurd (congrArg List.length hrs) (by omega)

/-- Witness for C10 at a concrete input: a string of 65536 zero bytes. -/
theorem c10_string_length_truncation_witness :
    2 ^ 16 ≤ (List.replicate 65536 0 : List Nat).length ∧
    (List.replicate 65536 0 : List Nat).length % 2 ^ 16 ≠
      (List.replicate 65536 0 : List Nat).length := by
  have hl : (List.replicate 65536 (0 : Nat)).length = 65536 := List.length_replicate _ _
  have h1 : 2 ^ 16 ≤ (List.replicate 65536 (0 : Nat)).length := by rw [hl]; norm_num
  exact ⟨h1, (c10_string_length_truncation .big (List.replicate 65536 0) h1).2.1⟩

/-- C8 (code_bug evidence): driving from_tag at target shapes the binding
layer does not implement (unsigned integers, char, option, unit structs, enum
discriminators, raw byte views) reaches a todo!() and panics instead of
returning a typed error value. -/
theorem c8_unsupported_shapes_panic :
    fromTag .u8 (.byte 1) = .panicked ∧
    fromTag .u16 (.short 1) = .panicked ∧
    fromTag .u32 (.int 1) = .panicked ∧
    fromTag .u64 (.long 1) = .panicked ∧
    fromTag .char (.string [97]) = .panicked ∧
    fromTag (.option .i8) (.byte 1) = .panicked ∧
    fromTag .unitStruct (.compound []) = .panicked ∧
    fromTag .enumeration (.string [97]) = .panicked ∧
    fromTag .bytesView (.byteArray [1]) = .panicked ∧
    (∀ e : DeError, (Outcome.panicked : Outcome DeError Value) ≠ .err e) :=
  ⟨rfl, rfl, rfl, rfl, rfl, rfl, rfl, rfl, rfl, fun _ h => Outcome.noConfusion h⟩

theorem keys_insertCompound (k : List Nat) (v : Tag) (m : List (List Nat × Tag)) :
    (insertCompound k v m).map Prod.fst =
      if (m.map Prod.fst).contains k then m.map Prod.fst
      else m.map Prod.fst ++ [k] := by
  induction m with
  | nil => simp [insertCompound]
  | cons hd tl ih =>
    obtain ⟨k', v'⟩ := hd
    simp only [insertCompound, List.map_cons, List.contains_cons]
    by_cases hk : k' = k
    · subst hk
      simp
    · have hb : (k == k') = false := beq_eq_false_iff_ne.mpr (Ne.symm hk)
      rw [if_neg hk]
      simp only [hb, Bool.false_or, List.map_cons]
      rw [ih]
      split
      · rfl
      · simp

theorem find_insertCompound (q k : List Nat) (v : Tag) (m : List (List Nat × Tag)) :
    findCompound q (insertCompound k v m) =
      if k = q then some v else findCompound q m := by
  induction m with
  | nil => simp [insertCompound, findCompound]
  | cons hd tl ih =>
    obtain ⟨k', v'⟩ := hd
    simp only [insertCompound]
    by_cases hk : k' = k
    · subst hk
      simp only [if_pos rfl, findCompound]
      split
      · rfl
      · rfl
    · rw [if_neg hk]
      simp only [findCompound]
      by_cases hq : k' = q
      · subst hq
        rw [if_pos rfl, if_pos rfl]
        rw [if_neg (fun h => hk h.symm)]
      · rw [if_neg hq, if_neg hq, ih]

theorem mem_firstKeys (a : List Nat) (l : List (List Nat)) :
    a ∈ firstKeys l ↔ a ∈ l := by
  induction l with
  | nil => simp [firstKeys]
  | cons n ns ih =>
    simp only [firstKeys, List.mem_cons, List.mem_filter, ih]
    constructor
    · rintro (rfl | ⟨h, _⟩)
      · exact Or.inl rfl
      · exact Or.inr h
    · rintro (rfl | h)
      · exact Or.inl rfl
      · by_cases hn : a = n
        · exact Or.inl hn
        · exact Or.inr ⟨h, by simpa using hn⟩

theorem count_firstKeys (a : List Nat) :
    ∀ l : List (List Nat), a ∈ l → (firstKeys l).count a = 1 := by
  intro l
  induction l with
  | nil => intro h; cases h
  | cons n ns ih =>
    intro h
    simp only [firstKeys]
    by_cases hn : a = n
    · subst hn
      rw [List.count_cons_self]
      have hz : ((firstKeys ns).filter (fun m => !(m == a))).count a = 0 := by
        rw [List.count_eq_zero]
        intro hmem
        have := (List.mem_filter.mp hmem).2
        simp at this
      omega
    · rw [List.count_cons_of_ne hn]
      have hm : a ∈ ns := (List.mem_cons.mp h).resolve_left hn
      rw [List.count_filter (by simpa using hn)]
      exact ih hm

theorem firstKeys_append_singleton (a : List Nat) :
    ∀ l : List (List Nat),
      firstKeys (l ++ [a]) = if a ∈ l then firstKeys l else firstKeys l ++ [a] := by
  intro l
  induction l with
  | nil => simp [firstKeys]
  | cons n ns ih =>
    have hcons : (n :: ns) ++ [a] = n :: (ns ++ [a]) := rfl
    rw [hcons]
    simp only [firstKeys]
    rw [ih]
    by_cases hmem : a ∈ ns
    · rw [if_pos hmem, if_pos (List.mem_cons_of_mem n hmem)]
    · rw [if_neg hmem]
      by_cases hn : a = n
      · subst hn
        rw [if_pos (List.mem_cons_self _ _)]
        rw [List.filter_append]
        simp
      · rw [if_neg (by simp [hn, hmem])]
        rw [List.filter_append]
        simp only [List.filter_cons, List.filter_nil]
        rw [if_pos (by simpa using hn)]
        simp

theorem foldEntries_append_singleton (es : List WireEntry) (ent : WireEntry)
    (acc : List (List Nat × Tag)) :
    foldEntries (es ++ [ent]) acc =
      insertCompound ent.name ent.tag (foldEntries es acc) := by
  simp [foldEntries, List.foldl_append]

theorem foldEntries_keys (es : List WireEntry) :
    (foldEntries es []).map Prod.fst = firstKeys (es.map WireEntry.name) := by
  induction es using List.reverseRecOn with
  | nil => rfl
  | append_singleton es ent ih =>
    rw [foldEntries_append_singleton, keys_insertCompound, ih, List.map_append,
      List.map_singleton, firstKeys_append_singleton]
    by_cases hmem : ent.name ∈ es.map WireEntry.name
    · rw [if_pos (by simpa [mem_firstKeys] using hmem), if_pos hmem]
    · rw [if_neg (by simpa [mem_firstKeys] using hmem), if_neg hmem]

theorem foldEntries_find (q : List Nat) (es : List WireEntry) :
    findCompound q (foldEntries es []) =
      (es.reverse.find? (fun ent => ent.name == q)).map WireEntry.tag := by
  induction es using List.reverseRecOn with
  | nil => rfl
  | append_singleton es ent ih =>
    rw [foldEntries_append_singleton, find_insertCompound, ih, List.reverse_append]
    simp only [List.reverse_singleton, List.singleton_append, List.find?_cons]
    by_cases hq : ent.name = q
    · rw [if_pos hq]
      rw [show (ent.name == q) = true from beq_iff_eq.mpr hq]
      rfl
    · rw [if_neg hq]
      rw [show (ent.name == q) = false from beq_eq_false_iff_ne.mpr hq]


theorem Outcome.ok_bind (a : α) (f : α → Outcome ε β) :
    ((Outcome.ok a : Outcome ε α) >>= f) = f a := rfl

theorem readTagIdByte_toByte (t : TagId) (k : List Nat) :
    readTagIdByte (t.toByte :: k) = .ok (t, k) := by
  cases t <;> rfl

theorem toByte_mod (t : TagId) : t.toByte % 256 = t.toByte := by
  cases t <;> rfl

theorem readCompoundEntries_wire (en : Endian) :
    ∀ (es : List WireEntry) (d : Nat) (acc : List (List Nat × Tag))
      (rest : List Nat) (f : Nat),
      (∀ ent ∈ es, EntryParses en d ent) →
      es.length + d + 1 ≤ f →
      readCompoundEntries f en acc (es.flatMap WireEntry.wire ++ 0 :: rest) =
        .ok (foldEntries es acc, rest) := by
  intro es
  induction es with
  | nil =>
    intro d acc rest f _ hf
    match f, hf with
    | f' + 1, _ => rfl
  | cons ent es ih =>
    intro d acc rest f hp hf
    match f, hf with
    | f' + 1, hf =>
      have hent := hp ent (List.mem_cons_self _ _)
      obtain ⟨hne, hname, htag⟩ := hent
      have hwire : (ent :: es).flatMap WireEntry.wire ++ 0 :: rest =
          ent.tid.toByte :: (ent.nameBytes ++ (ent.payloadBytes ++
            (es.flatMap WireEntry.wire ++ 0 :: rest))) := by
        simp [WireEntry.wire, writeTagId, writeUnsignedByte, toByte_mod]
      rw [hwire]
      simp only [readCompoundEntries, readTagIdByte_toByte, Outcome.ok_bind]
      rw [if_neg hne]
      rw [hname (ent.payloadBytes ++ (es.flatMap WireEntry.wire ++ 0 :: rest))]
      simp only [Outcome.ok_bind]
      rw [htag f' (es.flatMap WireEntry.wire ++ 0 :: rest) (by simp at hf; omega)]
      simp only [Outcome.ok_bind]
      rw [ih d (insertCompound ent.name ent.tag acc) rest f'
        (fun x hx => hp x (List.mem_cons_of_mem _ hx)) (by simp at hf ⊢; omega)]
      rfl


/-- C9: a wire compound holding two entries with the same key is read without
error; the resulting map is the IndexMap::insert fold of the entries, in
which the duplicated key appears exactly once, bound to the value of its last
wire occurrence, at the position of its first occurrence (the key list of the
result is the first-occurrence deduplication of the wire key sequence). -/
theorem c9_duplicate_keys_last_wins (en : Endian) (es : List WireEntry) (d : Nat)
    (rest : List Nat) (f : Nat) (k : List Nat)
    (hp : ∀ ent ∈ es, EntryParses en d ent)
    (hf : es.length + d + 1 ≤ f)
    (hdup : 2 ≤ (es.map WireEntry.name).count k) :
    readCompoundEntries f en [] (es.flatMap WireEntry.wire ++ 0 :: rest) =
      .ok (foldEntries es [], rest) ∧
    ((foldEntries es []).map Prod.fst).count k = 1 ∧
    findCompound k (foldEntries es []) =
      (es.reverse.find? (fun ent => ent.name == k)).map WireEntry.tag ∧
    (foldEntries es []).map Prod.fst = firstKeys (es.map WireEntry.name) := by
  refine ⟨readCompoundEntries_wire en es d [] rest f hp hf, ?_,
    foldEntries_find k es, foldEntries_keys es⟩
  rw [foldEntries_keys]
  refine count_firstKeys k _ ?_
  have : 0 < (es.map WireEntry.name).count k := by omega
  exact List.count_pos_iff.mp this

/-- Witness for C9: a Big-dialect compound body with two entries named "a"
(Byte 5 then Byte 7) followed by the End byte parses to the single entry
("a", Byte 7). -/
theorem c9_duplicate_keys_last_wins_witness :
    readCompoundEntries 4 .big [] [1, 0, 1, 97, 5, 1, 0, 1, 97, 7, 0] =
      .ok ([([97], .byte 7)], []) ∧
    ([([97], Tag.byte 7)].map Prod.fst).count [97] = 1 := by
  have hparse : ∀ ent ∈ [(⟨.byte, [0, 1, 97], [97], [5], .byte 5⟩ : WireEntry),
      ⟨.byte, [0, 1, 97], [97], [7], .byte 7⟩], EntryParses .big 1 ent := by
    intro ent hent
    have hcases := List.mem_cons.mp hent
    rcases hcases with rfl | h2
    · refine ⟨by decide, fun k => rfl, fun f k hf => ?_⟩
      match f, hf with
      | f' + 1, _ => rfl
    · have := List.mem_cons.mp h2
      rcases this with rfl | h3
      · refine ⟨by decide, fun k => rfl, fun f k hf => ?_⟩
        match f, hf with
        | f' + 1, _ => rfl
      · cases h3
  have h := c9_duplicate_keys_last_wins .big
    [⟨.byte, [0, 1, 97], [97], [5], .byte 5⟩, ⟨.byte, [0, 1, 97], [97], [7], .byte 7⟩]
    1 [] 4 [97] hparse (by decide) (by decide)
  exact ⟨h.1, h.2.1⟩

theorem length_leBytes (k : Nat) : ∀ v : Nat, (leBytes k v).length = k := by
  induction k with
  | zero => intro v; rfl
  | succ k ih => intro v; simp [leBytes, ih]

theorem readLePattern_leBytes (v : Nat) (r : List Nat) (hv : v < 2 ^ 32) :
    readLePattern 4 (leBytes 4 v ++ r) = .ok (v, r) := by
  have hshape : leBytes 4 v ++ r =
      v % 256 :: v / 256 % 256 :: v / 256 / 256 % 256 :: v / 256 / 256 / 256 % 256 :: r := rfl
  have hrl : ∀ a b c d : Nat, readLePattern 4 (a :: b :: c :: d :: r) =
      .ok (a + 256 * (b + 256 * (c + 256 * (d + 256 * 0))), r) := fun a b c d => rfl
  rw [hshape, hrl]
  congr 2
  omega

theorem storageHeaderBad_iff (t : Tag) :
    storageHeaderBad t = true ↔ ∃ er, getStorageVersion t = .error er := by
  cases t with
  | compound kvs =>
    simp only [storageHeaderBad, getStorageVersion]
    cases hfind : findCompound storageVersionKey kvs with
    | none => simp
    | some tg => cases tg <;> simp
  | byte v => simp [storageHeaderBad, getStorageVersion]
  | short v => simp [storageHeaderBad, getStorageVersion]
  | int v => simp [storageHeaderBad, getStorageVersion]
  | long v => simp [storageHeaderBad, getStorageVersion]
  | float b => simp [storageHeaderBad, getStorageVersion]
  | double b => simp [storageHeaderBad, getStorageVersion]
  | byteArray vs => simp [storageHeaderBad, getStorageVersion]
  | string s => simp [storageHeaderBad, getStorageVersion]
  | list ts => simp [storageHeaderBad, getStorageVersion]
  | intArray vs => simp [storageHeaderBad, getStorageVersion]
  | longArray vs => simp [storageHeaderBad, getStorageVersion]

theorem toPattern_usizeToI32 (n : Nat) : toPattern 32 (usizeToI32 n) = n % 2 ^ 32 := by
  simp only [usizeToI32, toSigned, toPattern]
  split
  · omega
  · have h1 : n % 2 ^ 32 < 2 ^ 32 := Nat.mod_lt _ (by norm_num)
    omega

/-- C6 amended: write_root with the header enabled fails exactly when the
root is not a Compound, lacks StorageVersion, or holds it at a non-Int kind;
on success the first 8 bytes are the little-endian 32-bit StorageVersion
pattern followed by the little-endian 32-bit value (total length - 8)
mod 2 to the 32. -/
theorem c6_header_behavior_amended (t : Tag) (name : List Nat) (e : Endian) :
    ((∃ er, writeRoot t name e .withHeader = .error er) ↔ storageHeaderBad t = true) ∧
    (∀ out, writeRoot t name e .withHeader = .ok out →
      ∃ sv, getStorageVersion t = .ok sv ∧ 8 ≤ out.length ∧
        out.take 8 =
          leBytes 4 (toPattern 32 sv) ++ leBytes 4 ((out.length - 8) % 2 ^ 32) ∧
        readLePattern 4 (out.drop 4) =
          .ok ((out.length - 8) % 2 ^ 32, out.drop 8)) := by
  cases hsv : getStorageVersion t with
  | error er =>
    have hw : writeRoot t name e .withHeader = .error er := by
      simp [writeRoot, writeBedrockHeader, hsv, Except.bind]
    constructor
    · constructor
      · intro _
        exact (storageHeaderBad_iff t).mpr ⟨er, hsv⟩
      · intro _
        exact ⟨er, hw⟩
    · intro out hout
      rw [hw] at hout
      cases hout
  | ok sv =>
    set body := writeTagId t.id ++ writeString e name ++ writeTag e t with hbody
    have hw : writeRoot t name e .withHeader =
        .ok ((leBytes 4 (toPattern 32 sv) ++
          leBytes 4 (toPattern 32 (usizeToI32 (8 + body.length - 8)))) ++ body) := by
      simp [writeRoot, writeBedrockHeader, hsv, Except.bind, hbody]
    constructor
    · constructor
      · rintro ⟨er, her⟩
        rw [hw] at her
        cases her
      · intro hbad
        obtain ⟨er, her⟩ := (storageHeaderBad_iff t).mp hbad
        rw [hsv] at her
        cases her
    · intro out hout
      rw [hw] at hout
      cases hout
      have hlen8 : (leBytes 4 (toPattern 32 sv) ++
          leBytes 4 (toPattern 32 (usizeToI32 (8 + body.length - 8)))).length = 8 := by
        simp [length_leBytes]
      have hcancel : 8 + body.length - 8 = body.length := by omega
      have houtlen : ((leBytes 4 (toPattern 32 sv) ++
          leBytes 4 (toPattern 32 (usizeToI32 (8 + body.length - 8)))) ++ body).length =
          8 + body.length := by
        simp only [List.length_append, length_leBytes]
        try omega
      refine ⟨sv, rfl, by omega, ?_, ?_⟩
      · rw [List.take_left' hlen8, houtlen, hcancel, toPattern_usizeToI32]
      · rw [houtlen]
        have hassoc : (leBytes 4 (toPattern 32 sv) ++
            leBytes 4 (toPattern 32 (usizeToI32 (8 + body.length - 8)))) ++ body =
            leBytes 4 (toPattern 32 sv) ++
              (leBytes 4 (toPattern 32 (usizeToI32 (8 + body.length - 8))) ++ body) :=
          List.append_assoc _ _ _
        rw [hassoc, List.drop_left' (length_leBytes 4 _)]
        rw [show (8 : Nat) = 4 + 4 from rfl, ← List.drop_drop,
          List.drop_left' (length_leBytes 4 _), List.drop_left' (length_leBytes 4 _)]
        rw [hcancel, toPattern_usizeToI32]
        exact readLePattern_leBytes _ _ (Nat.mod_lt _ (by norm_num))

/-- Witness for C6 at a concrete input: a Compound with StorageVersion Int 2,
written with the Little dialect. -/
theorem c6_header_behavior_witness :
    storageHeaderBad (Tag.compound [(storageVersionKey, Tag.int 2)]) = false ∧
    writeRoot (Tag.compound [(storageVersionKey, Tag.int 2)]) [] .little .withHeader =
      .ok [2, 0, 0, 0, 25, 0, 0, 0, 10, 0, 0, 3, 14, 0, 83, 116, 111, 114, 97, 103,
        101, 86, 101, 114, 115, 105, 111, 110, 2, 0, 0, 0, 0] ∧
    ¬ ((∃ er, writeRoot (Tag.compound [(storageVersionKey, Tag.int 2)]) [] .little
        .withHeader = .error er)) := by
  refine ⟨rfl, rfl, ?_⟩
  intro hex
  have h := (c6_header_behavior_amended
    (Tag.compound [(storageVersionKey, Tag.int 2)]) [] .little).1.mp hex
  have hb : storageHeaderBad (Tag.compound [(storageVersionKey, Tag.int 2)]) = false := rfl
  rw [hb] at h
  cases h

theorem length_flatMap_writeByte_replicate (n : Nat) :
    ((List.replicate n (0 : Int)).flatMap writeByte).length = n := by
  induction n with
  | zero => rfl
  | succ n ih => simp [List.replicate_succ, writeByte, ih]

theorem writeRoot_withHeader_ok (t : Tag) (name : List Nat) (e : Endian) (sv : Int)
    (hsv : getStorageVersion t = .ok sv) :
    writeRoot t name e .withHeader =
      .ok ((leBytes 4 (toPattern 32 sv) ++
        leBytes 4 (toPattern 32 (usizeToI32
          ((writeTagId t.id ++ writeString e name ++ writeTag e t).length)))) ++
        (writeTagId t.id ++ writeString e name ++ writeTag e t)) := by
  have hcancel :
      8 + (writeTagId t.id ++ writeString e name ++ writeTag e t).length - 8 =
        (writeTagId t.id ++ writeString e name ++ writeTag e t).length := by omega
  simp [writeRoot, writeBedrockHeader, hsv, Except.bind, hcancel]

theorem c6_writeTag_unfold :
    writeTag .little c6BigTree =
      (writeTagId TagId.int ++ writeString .little storageVersionKey ++
        writeInt .little 1 ++
        (writeTagId TagId.byteArray ++ writeString .little [98] ++
          writeByteArray .little (List.replicate (2 ^ 32) 0) ++ [])) ++
        writeTagId TagId.end_ := rfl

theorem length_writeByteArray_big :
    (writeByteArray .little (List.replicate (2 ^ 32) 0)).length = 4 + 2 ^ 32 := by
  show (writeInt .little (usizeToI32 (List.replicate (2 ^ 32) (0 : Int)).length) ++
    (List.replicate (2 ^ 32) (0 : Int)).flatMap writeByte).length = 4 + 2 ^ 32
  rw [List.length_append, length_flatMap_writeByte_replicate]
  have h4 : (writeInt .little (usizeToI32 (List.replicate (2 ^ 32) (0 : Int)).length)).length
      = 4 := length_leBytes 4 _
  omega

theorem c6Body_length : c6Body.length = 2 ^ 32 + 33 := by
  show (writeTagId c6BigTree.id ++ writeString .little [] ++
    writeTag .little c6BigTree).length = 2 ^ 32 + 33
  rw [c6_writeTag_unfold]
  simp only [List.length_append]
  rw [length_writeByteArray_big]
  have l1 : (writeTagId c6BigTree.id).length = 1 := rfl
  have l2 : (writeString .little ([] : List Nat)).length = 2 := rfl
  have l3 : (writeTagId TagId.int).length = 1 := rfl
  have l4 : (writeString .little storageVersionKey).length = 16 := rfl
  have l5 : (writeInt .little 1).length = 4 := rfl
  have l6 : (writeTagId TagId.byteArray).length = 1 := rfl
  have l7 : (writeString .little [98]).length = 3 := rfl
  have l8 : (writeTagId TagId.end_).length = 1 := rfl
  have l9 : ([] : List Nat).length = 0 := rfl
  omega

/-- C6 counterexample: on a root Compound holding StorageVersion Int 1 and a
ByteArray of 2 to the 32 bytes, the writer succeeds and the emitted 32-bit
payload-length field decodes to 33, while the total output length minus 8 is
2 to the 32 plus 33: the claimed equality fails because the usize-to-i32 cast
wraps. -/
theorem c6_payload_len_wraps_counterexample :
    writeRoot c6BigTree [] .little .withHeader =
      .ok ((leBytes 4 1 ++ leBytes 4 33) ++ c6Body) ∧
    ((leBytes 4 1 ++ leBytes 4 33) ++ c6Body).length - 8 = 2 ^ 32 + 33 ∧
    readLePattern 4 (((leBytes 4 1 ++ leBytes 4 33) ++ c6Body).drop 4) =
      .ok (33, c6Body) ∧
    (33 : Nat) ≠ 2 ^ 32 + 33 := by
  have hsv : getStorageVersion c6BigTree = .ok 1 := rfl
  have hshape := writeRoot_withHeader_ok c6BigTree [] .little 1 hsv
  have hbody : writeTagId c6BigTree.id ++ writeString .little [] ++
      writeTag .little c6BigTree = c6Body := rfl
  rw [hbody] at hshape
  have hpat : toPattern 32 (usizeToI32 c6Body.length) = 33 := by
    rw [toPattern_usizeToI32, c6Body_length]
    omega
  have hpat1 : toPattern 32 (1 : Int) = 1 := rfl
  rw [hpat, hpat1] at hshape
  refine ⟨hshape, ?_, ?_, by omega⟩
  · rw [List.length_append, List.length_append, c6Body_length,
      length_leBytes, length_leBytes]
    omega
  · rw [List.append_assoc, List.drop_left' (length_leBytes 4 _)]
    exact readLePattern_leBytes 33 c6Body (by norm_num)

theorem insertCompound_append (n : List Nat) (t : Tag) :
    ∀ acc : List (List Nat × Tag), (∀ p ∈ acc, p.1 ≠ n) →
      insertCompound n t acc = acc ++ [(n, t)] := by
  intro acc
  induction acc with
  | nil => intro _; rfl
  | cons hd tl ih =>
    intro h
    obtain ⟨k', v'⟩ := hd
    have hk : k' ≠ n := h (k', v') (List.mem_cons_self _ _)
    simp only [insertCompound, if_neg hk, List.cons_append]
    rw [ih (fun p hp => h p (List.mem_cons_of_mem _ hp))]

theorem toTagFields_eq :
    ∀ (fvs : FieldVals) (acc : List (List Nat × Tag)),
      nodupNames fvs.names = true →
      (∀ p ∈ acc, p.1 ∉ fvs.names) →
      toTagFields fvs acc = acc ++ fieldPairs fvs
  | .nil, acc, _, _ => by simp [toTagFields, fieldPairs]
  | .cons n v rest, acc, hnd, hdisj => by
    simp only [toTagFields, fieldPairs]
    have hn : ∀ p ∈ acc, p.1 ≠ n := by
      intro p hp hEq
      exact hdisj p hp (hEq ▸ List.mem_cons_self _ _)
    rw [insertCompound_append n (toTag v) acc hn]
    have hnd' : nodupNames rest.names = true := by
      simp only [FieldVals.names, nodupNames, Bool.and_eq_true] at hnd
      exact hnd.2
    have hnotin : n ∉ rest.names := by
      simp only [FieldVals.names, nodupNames, Bool.and_eq_true] at hnd
      intro hmem
      have := hnd.1
      simp at this
      exact this hmem
    have hdisj' : ∀ p ∈ acc ++ [(n, toTag v)], p.1 ∉ rest.names := by
      intro p hp
      rcases List.mem_append.mp hp with hp | hp
      · intro hmem
        exact hdisj p hp (List.mem_cons_of_mem _ hmem)
      · rcases List.mem_singleton.mp hp with rfl
        exact hnotin
    rw [toTagFields_eq rest (acc ++ [(n, toTag v)]) hnd' hdisj']
    simp

theorem conformsFields_names :
    ∀ (fs : Fields) (fvs : FieldVals), conformsFields fs fvs = true →
      fvs.names = fs.names
  | .nil, .nil, _ => rfl
  | .nil, .cons n v rest, h => by simp [conformsFields] at h
  | .cons n s rest, .nil, h => by simp [conformsFields] at h
  | .cons n s rest, .cons n' v' rest', h => by
    simp only [conformsFields, Bool.and_eq_true] at h
    obtain ⟨⟨hn, _⟩, hrest⟩ := h
    have heq : n = n' := by simpa using hn
    simp [FieldVals.names, Fields.names, heq, conformsFields_names rest rest' hrest]

theorem allPresent_of_subset :
    ∀ (fs : Fields) (fvs : FieldVals),
      (∀ n, n ∈ fs.names → n ∈ fvs.names) → allPresent fs fvs = true
  | .nil, fvs, _ => rfl
  | .cons n s rest, fvs, h => by
    simp only [allPresent, Bool.and_eq_true]
    constructor
    · have := h n (List.mem_cons_self _ _)
      simpa using this
    · exact allPresent_of_subset rest fvs (fun n' hn' => h n' (List.mem_cons_of_mem _ hn'))


theorem findShape_mem :
    ∀ (fs : Fields) (k : List Nat) (s : Shape), fs.findShape k = some s → k ∈ fs.names
  | .nil, k, s, h => by simp [Fields.findShape] at h
  | .cons n sh rest, k, s, h => by
    simp only [Fields.findShape] at h
    split at h
    · rename_i heq
      exact heq ▸ List.mem_cons_self _ _
    · exact List.mem_cons_of_mem _ (findShape_mem rest k s h)


mutual

theorem roundTripTag (s : Shape) (v : Value) (hs : supportedB s = true)
    (hc : conformsB s v = true) : fromTag s (toTag v) = .ok v := by
  cases v with
  | bool b =>
    cases s <;> simp [conformsB] at hc
    cases b <;> rfl
  | i8 n =>
    cases s <;> simp [conformsB] at hc
    rfl
  | i16 n =>
    cases s <;> simp [conformsB] at hc
    rfl
  | i32 n =>
    cases s <;> simp [conformsB] at hc
    rfl
  | i64 n =>
    cases s <;> simp [conformsB] at hc
    rfl
  | f32 bits =>
    cases s <;> simp [conformsB] at hc
    rfl
  | f64 bits =>
    cases s <;> simp [conformsB] at hc
    rfl
  | str sb =>
    cases s <;> simp [conformsB] at hc
    rfl
  | seq vs =>
    cases s <;> simp only [conformsB] at hc
    case seq selem =>
      simp only [supportedB] at hs
      show (fromTagList selem (toTagValues vs)).map Value.seq = Outcome.ok (Value.seq vs)
      rw [roundTripValues selem vs hs hc]
      rfl
    all_goals cases hc
  | record fvs =>
    cases s <;> simp only [conformsB] at hc
    case record fs =>
      simp only [supportedB, Bool.and_eq_true] at hs
      obtain ⟨hnd, hsup⟩ := hs
      have hnames : fvs.names = fs.names := conformsFields_names fs fvs hc
      have hpairs : toTagFields fvs [] = fieldPairs fvs :=
        toTagFields_eq fvs [] (by rw [hnames]; exact hnd) (by intro p hp; cases hp)
      have hentries : fromTagEntries fs (fieldPairs fvs) = .ok fvs :=
        roundTripEntries fs fs fvs hsup hnd hc (fun _ _ h => h)
      have hall : allPresent fs fvs = true := by
        refine allPresent_of_subset fs fvs ?_
        intro n hn
        rw [hnames]
        exact hn
      show (do
        let walked ← fromTagEntries fs (toTagFields fvs [])
        if allPresent fs walked then pure (Value.record walked)
        else Outcome.err DeError.valueMissing) = Outcome.ok (Value.record fvs)
      rw [hpairs, hentries, Outcome.ok_bind, if_pos hall]
      rfl
    all_goals cases hc
  | byteArrayW vs =>
    cases s <;> simp [conformsB] at hc
    rfl
  | intArrayW vs =>
    cases s <;> simp [conformsB] at hc
    rfl
  | longArrayW vs =>
    cases s <;> simp [conformsB] at hc
    rfl
termination_by structural v

theorem roundTripValues (s : Shape) (vs : Values) (hs : supportedB s = true)
    (hc : conformsValues s vs = true) : fromTagList s (toTagValues vs) = .ok vs := by
  cases vs with
  | nil => rfl
  | cons v rest =>
    simp only [conformsValues, Bool.and_eq_true] at hc
    show (do
      let v' ← fromTag s (toTag v)
      let vs' ← fromTagList s (toTagValues rest)
      pure (Values.cons v' vs')) = Outcome.ok (Values.cons v rest)
    rw [roundTripTag s v hs hc.1, Outcome.ok_bind,
      roundTripValues s rest hs hc.2, Outcome.ok_bind]
    rfl
termination_by structural vs

theorem roundTripEntries (fsAll fs : Fields) (fvs : FieldVals)
    (hsup : supportedFields fs = true) (hnd : nodupNames fs.names = true)
    (hc : conformsFields fs fvs = true)
    (hagree : ∀ n s, fs.findShape n = some s → fsAll.findShape n = some s) :
    fromTagEntries fsAll (fieldPairs fvs) = .ok fvs := by
  cases fvs with
  | nil => rfl
  | cons n v rest =>
    cases fs with
    | nil => simp [conformsFields] at hc
    | cons n0 s0 fs' =>
      simp only [conformsFields, Bool.and_eq_true] at hc
      obtain ⟨⟨hn0, hcv⟩, hcrest⟩ := hc
      have hneq : n0 = n := by simpa using hn0
      subst hneq
      simp only [supportedFields, Bool.and_eq_true] at hsup
      simp only [Fields.names, nodupNames, Bool.and_eq_true] at hnd
      have hfind : fsAll.findShape n0 = some s0 :=
        hagree n0 s0 (by simp [Fields.findShape])
      have hagree2 : ∀ m s, fs'.findShape m = some s → fsAll.findShape m = some s := by
        intro m s hm
        refine hagree m s ?_
        have hmem : m ∈ fs'.names := findShape_mem fs' m s hm
        have hne : n0 ≠ m := by
          intro hEq
          subst hEq
          have := hnd.1
          simp at this
          exact this hmem
        simp [Fields.findShape, hne, hm]
      show (match fsAll.findShape n0 with
        | none => Outcome.panicked
        | some sh => do
          let v' ← fromTag sh (toTag v)
          let rest' ← fromTagEntries fsAll (fieldPairs rest)
          pure (FieldVals.cons n0 v' rest')) = Outcome.ok (FieldVals.cons n0 v rest)
      rw [hfind]
      show (do
        let v' ← fromTag s0 (toTag v)
        let rest' ← fromTagEntries fsAll (fieldPairs rest)
        pure (FieldVals.cons n0 v' rest')) = Outcome.ok (FieldVals.cons n0 v rest)
      rw [roundTripTag s0 v hsup.1 hcv, Outcome.ok_bind,
        roundTripEntries fsAll fs' rest hsup.2 hnd.2 hcrest hagree2, Outcome.ok_bind]
      rfl
termination_by structural fvs

end


/-- C5: for every value of a declared user type admitted by the binding layer
(supported shapes with distinct field names, the value inhabiting the shape),
deserializing the serialized tag succeeds and returns the value unchanged. -/
theorem c5_binding_roundtrip (s : Shape) (v : Value)
    (hs : supportedB s = true) (hc : conformsB s v = true) :
    fromTag s (toTag v) = .ok v :=
  roundTripTag s v hs hc

/-- Witness for C5 at the spec's concrete scenario: the record type with a
text field name and an i32 field age, at the value name = Zesty, age = 42. -/
theorem c5_binding_roundtrip_witness :
    supportedB (.record (.cons [110, 97, 109, 101] .str
      (.cons [97, 103, 101] .i32 .nil))) = true ∧
    conformsB (.record (.cons [110, 97, 109, 101] .str
        (.cons [97, 103, 101] .i32 .nil)))
      (.record (.cons [110, 97, 109, 101] (.str [90, 101, 115, 116, 121])
        (.cons [97, 103, 101] (.i32 42) .nil))) = true ∧
    fromTag (.record (.cons [110, 97, 109, 101] .str
        (.cons [97, 103, 101] .i32 .nil)))
      (toTag (.record (.cons [110, 97, 109, 101] (.str [90, 101, 115, 116, 121])
        (.cons [97, 103, 101] (.i32 42) .nil)))) =
      .ok (.record (.cons [110, 97, 109, 101] (.str [90, 101, 115, 116, 121])
        (.cons [97, 103, 101] (.i32 42) .nil))) :=
  ⟨rfl, rfl, c5_binding_roundtrip _ _ rfl rfl⟩

end RustNbt
namespace RustNbt

theorem testBit31_true {r : Nat} (h1 : 2 ^ 31 ≤ r) (h2 : r < 2 ^ 32) :
    r.testBit 31 = true := by
  rw [Nat.testBit_to_div_mod]
  simp only [decide_eq_true_eq]
  omega

theorem lt_two31_of_testBit31_false {r : Nat} (h2 : r < 2 ^ 32)
    (h : r.testBit 31 = false) : r < 2 ^ 31 := by
  by_contra hge
  have ht := testBit31_true (by omega) h2
  rw [h] at ht
  exact Bool.noConfusion ht

theorem or_two_pow_xor {y : Nat} (n : Nat) (h : y < 2 ^ n) :
    (y ||| 2 ^ n) ^^^ 2 ^ n = y := by
  apply Nat.eq_of_testBit_eq
  intro i
  simp only [Nat.testBit_xor, Nat.testBit_or, Nat.testBit_two_pow]
  by_cases hi : n = i
  · subst hi
    simp [Nat.testBit_lt_two_pow h]
  · simp [hi]

theorem testBit_allOnes32 (i : Nat) : Nat.testBit 4294967295 i = decide (i < 32) := by
  rw [show (4294967295 : Nat) = 2 ^ 32 - 1 from by norm_num, Nat.testBit_two_pow_sub_one]

theorem testBit_pow31 (i : Nat) : Nat.testBit 2147483648 i = decide (31 = i) := by
  rw [show (2147483648 : Nat) = 2 ^ 31 from by norm_num, Nat.testBit_two_pow]

theorem zigZagFinal32_eq (r : Nat) (hr : r < 2 ^ 32) :
    zigZagFinal32 r = specZigZagPattern 32 r := by
  have hmask : shlWrap 32 1 31 = 2 ^ 31 := by
    simp [shlWrap, Nat.shiftLeft_eq]
  have hshl : shlWrap 32 r 31 = 2 ^ 31 * (r % 2) := by
    rw [shlWrap, Nat.shiftLeft_eq, show (2 : Nat) ^ 32 = 2 ^ 31 * 2 from by norm_num,
      Nat.mul_comm r, Nat.mul_mod_mul_left]
  rcases Nat.mod_two_eq_zero_or_one r with hpar | hpar
  · -- even input
    have h0 : shlWrap 32 r 31 = 0 := by rw [hshl, hpar, Nat.mul_zero]
    have hspec : specZigZagPattern 32 r = r >>> 1 := by
      rw [specZigZagPattern, if_neg (by omega), Nat.xor_zero]
    have hsar0 : sar 32 0 31 = 0 := by simp [sar]
    rw [zigZagFinal32, hmask, h0, hspec, hsar0, Nat.zero_xor]
    by_cases h31 : r < 2 ^ 31
    · have hmsb : r &&& 2 ^ 31 = 0 := by
        rw [Nat.and_two_pow, Nat.testBit_lt_two_pow h31]; simp
      rw [hmsb, Nat.xor_zero, sar, if_pos h31]
    · have hge : 2 ^ 31 ≤ r := le_of_not_lt h31
      have hmsb : r &&& 2 ^ 31 = 2 ^ 31 := by
        rw [Nat.and_two_pow, testBit31_true hge hr]; simp
      have hhalf : r >>> 1 < 2 ^ 31 := by
        rw [Nat.shiftRight_one]; omega
      rw [hmsb, sar, if_neg h31,
        show (2 : Nat) ^ 32 - 2 ^ (32 - 1) = 2 ^ 31 from by norm_num]
      exact or_two_pow_xor 31 hhalf
  · -- odd input
    have h1 : shlWrap 32 r 31 = 2 ^ 31 := by rw [hshl, hpar, Nat.mul_one]
    have hsar1 : sar 32 (2 ^ 31) 31 = 2 ^ 32 - 1 := by
      rw [sar, if_neg (by norm_num)]
      decide
    have hspec : specZigZagPattern 32 r = r >>> 1 ^^^ (2 ^ 32 - 1) := by
      rw [specZigZagPattern, if_pos (by omega)]
    rw [zigZagFinal32, hmask, h1, hsar1, hspec]
    by_cases h31 : r < 2 ^ 31
    · have hmsb : r &&& 2 ^ 31 = 0 := by
        rw [Nat.and_two_pow, Nat.testBit_lt_two_pow h31]; simp
      have hbbit : ((2 ^ 32 - 1) ^^^ r).testBit 31 = true := by
        rw [Nat.testBit_xor, Nat.testBit_two_pow_sub_one, Nat.testBit_lt_two_pow h31]
        rfl
      have hbge : ¬ (2 ^ 32 - 1) ^^^ r < 2 ^ 31 := by
        have := Nat.testBit_implies_ge hbbit
        omega
      rw [hmsb, Nat.xor_zero, sar, if_neg hbge,
        show (2 : Nat) ^ 32 - 2 ^ (32 - 1) = 2 ^ 31 from by norm_num]
      apply Nat.eq_of_testBit_eq
      intro i
      simp only [Nat.testBit_or, Nat.testBit_xor, Nat.testBit_shiftRight,
        Nat.testBit_two_pow_sub_one, Nat.testBit_two_pow, testBit_allOnes32, testBit_pow31]
      by_cases hi : i < 31
      · simp [show 1 + i < 32 from by omega, show ¬(31 = i) from by omega,
          show i < 32 from by omega]
      · by_cases hieq : i = 31
        · subst hieq
          have h32 : r.testBit 32 = false := Nat.testBit_lt_two_pow (by omega)
          simp [h32]
        · have hbig : r.testBit (1 + i) = false :=
            Nat.testBit_lt_two_pow
              (lt_of_lt_of_le hr (Nat.pow_le_pow_right (by omega) (by omega)))
          simp [hbig, show ¬(1 + i < 32) from by omega, show ¬(31 = i) from by omega,
            show ¬(i < 32) from by omega]
    · have hge : 2 ^ 31 ≤ r := le_of_not_lt h31
      have hmsb : r &&& 2 ^ 31 = 2 ^ 31 := by
        rw [Nat.and_two_pow, testBit31_true hge hr]; simp
      have hbbit : ((2 ^ 32 - 1) ^^^ r).testBit 31 = false := by
        rw [Nat.testBit_xor, Nat.testBit_two_pow_sub_one, testBit31_true hge hr]
        rfl
      have hblt : (2 ^ 32 - 1) ^^^ r < 2 ^ 31 :=
        lt_two31_of_testBit31_false (Nat.xor_lt_two_pow (by norm_num) hr) hbbit
      rw [hmsb, sar, if_pos hblt]
      apply Nat.eq_of_testBit_eq
      intro i
      simp only [Nat.testBit_xor, Nat.testBit_shiftRight,
        Nat.testBit_two_pow_sub_one, Nat.testBit_two_pow, testBit_allOnes32, testBit_pow31]
      by_cases hi : i < 31
      · simp [show 1 + i < 32 from by omega, show ¬(31 = i) from by omega,
          show i < 32 from by omega]
      · by_cases hieq : i = 31
        · subst hieq
          have h32 : r.testBit 32 = false := Nat.testBit_lt_two_pow (by omega)
          simp [h32]
        · have hbig : r.testBit (1 + i) = false :=
            Nat.testBit_lt_two_pow
              (lt_of_lt_of_le hr (Nat.pow_le_pow_right (by omega) (by omega)))
          simp [hbig, show ¬(1 + i < 32) from by omega, show ¬(31 = i) from by omega,
            show ¬(i < 32) from by omega]

theorem specVarLoop_mono :
    ∀ (bs : List Nat) (maxShift acc shift U : Nat) (rest : List Nat),
      specVarLoop maxShift acc shift bs = .ok (U, rest) →
      ∀ i, acc.testBit i = true → U.testBit i = true := by
  intro bs
  induction bs with
  | nil => intro maxShift acc shift U rest h; simp [specVarLoop] at h
  | cons b tail ih =>
    intro maxShift acc shift U rest h i hi
    simp only [specVarLoop] at h
    by_cases h80 : b &&& 0x80 = 0
    · rw [if_pos h80] at h
      cases h
      simp [Nat.testBit_or, hi]
    · rw [if_neg h80] at h
      by_cases hbound : shift + 7 > maxShift
      · rw [if_pos hbound] at h
        cases h
      · rw [if_neg hbound] at h
        exact ih _ _ _ _ _ h i (by simp [Nat.testBit_or, hi])

theorem readVarIntZigZagLoop_spec :
    ∀ (bs : List Nat) (acc shift U : Nat) (rest : List Nat),
      specVarLoop 28 acc shift bs = .ok (U, rest) →
      U < 2 ^ 32 → shift ≤ 28 →
      readVarIntZigZagLoop acc shift bs = .ok (U, rest) := by
  intro bs
  induction bs with
  | nil => intro acc shift U rest h _ _; simp [specVarLoop] at h
  | cons b tail ih =>
    intro acc shift U rest h hU hshift
    simp only [specVarLoop] at h
    simp only [readVarIntZigZagLoop]
    have hsm : shift % 32 = shift := Nat.mod_eq_of_lt (by omega)
    by_cases h80 : b &&& 0x80 = 0
    · rw [if_pos h80] at h ⊢
      cases h
      have hx : (b &&& 0x7F) <<< shift ≤ acc ||| (b &&& 0x7F) <<< shift :=
        Nat.le_of_testBit (fun i hi => by simp [Nat.testBit_or, hi])
      have hmod : ((b &&& 0x7F) <<< shift) % 2 ^ 32 = (b &&& 0x7F) <<< shift :=
        Nat.mod_eq_of_lt (lt_of_le_of_lt hx hU)
      rw [hsm, hmod]
    · rw [if_neg h80] at h ⊢
      by_cases hbound : shift + 7 > 28
      · rw [if_pos hbound] at h
        cases h
      · rw [if_neg hbound] at h
        rw [if_neg (by omega : ¬ shift + 7 > 63)]
        have hsub : ∀ i, ((b &&& 0x7F) <<< shift).testBit i = true → U.testBit i = true := by
          intro i hi
          exact specVarLoop_mono _ _ _ _ _ _ h i (by simp [Nat.testBit_or, hi])
        have hmod : ((b &&& 0x7F) <<< shift) % 2 ^ 32 = (b &&& 0x7F) <<< shift :=
          Nat.mod_eq_of_lt (lt_of_le_of_lt (Nat.le_of_testBit hsub) hU)
        rw [hsm, hmod]
        exact ih _ _ _ _ h hU (by omega)

theorem readVarLongZigZagLoop_spec :
    ∀ (bs : List Nat) (acc shift U : Nat) (rest : List Nat),
      specVarLoop 63 acc shift bs = .ok (U, rest) →
      U < 2 ^ 64 →
      readVarLongZigZagLoop acc shift bs = .ok (U, rest) := by
  intro bs
  induction bs with
  | nil => intro acc shift U rest h _; simp [specVarLoop] at h
  | cons b tail ih =>
    intro acc shift U rest h hU
    simp only [specVarLoop] at h
    simp only [readVarLongZigZagLoop]
    by_cases h80 : b &&& 0x80 = 0
    · rw [if_pos h80] at h ⊢
      cases h
      have hx : (b &&& 0x7F) <<< shift ≤ acc ||| (b &&& 0x7F) <<< shift :=
        Nat.le_of_testBit (fun i hi => by simp [Nat.testBit_or, hi])
      have hmod : ((b &&& 0x7F) <<< shift) % 2 ^ 64 = (b &&& 0x7F) <<< shift :=
        Nat.mod_eq_of_lt (lt_of_le_of_lt hx hU)
      rw [hmod]
    · rw [if_neg h80] at h ⊢
      by_cases hbound : shift + 7 > 63
      · rw [if_pos hbound] at h
        cases h
      · rw [if_neg hbound] at h
        rw [if_neg hbound]
        have hsub : ∀ i, ((b &&& 0x7F) <<< shift).testBit i = true → U.testBit i = true := by
          intro i hi
          exact specVarLoop_mono _ _ _ _ _ _ h i (by simp [Nat.testBit_or, hi])
        have hmod : ((b &&& 0x7F) <<< shift) % 2 ^ 64 = (b &&& 0x7F) <<< shift :=
          Nat.mod_eq_of_lt (lt_of_le_of_lt (Nat.le_of_testBit hsub) hU)
        rw [hmod]
        exact ih _ _ _ _ h hU

theorem zigZagFinal64_eq (r : Nat) :
    zigZagFinal64 r = specZigZagPattern 64 r := by
  rw [zigZagFinal64, specZigZagPattern, Nat.and_one_is_mod]
  rcases Nat.mod_two_eq_zero_or_one r with hpar | hpar <;> rw [hpar]
  · rw [if_neg (by omega),
      show toPattern 64 (-(toSigned 64 0)) = 0 from by decide]
  · rw [if_pos rfl,
      show toPattern 64 (-(toSigned 64 1)) = 2 ^ 64 - 1 from by decide]

/-- C3: in the LittleVarInt dialect the reader's signed interpretation is
exactly the canonical zig-zag decoding.  Whenever the spec-side unsigned
varint decoder yields U (fitting the width), read_var_int_zig_zag /
read_var_long_zig_zag succeed on the same bytes with exactly the signed
value of the canonical pattern (U shr 1) xor (-(U and 1)) — so the
source's unusual i32 formula is equivalent to the canonical one — and
Int payloads, Long payloads and array/list lengths all route through
these two zig-zag decoders and no other signed interpretation. -/
theorem c3_zigzag_decode_canonical :
    (∀ bs U rest, decodeVarUnsigned 32 bs = .ok (U, rest) → U < 2 ^ 32 →
      readVarIntZigZag bs = .ok (toSigned 32 (specZigZagPattern 32 U), rest)) ∧
    (∀ bs U rest, decodeVarUnsigned 64 bs = .ok (U, rest) → U < 2 ^ 64 →
      readVarLongZigZag bs = .ok (toSigned 64 (specZigZagPattern 64 U), rest)) ∧
    (∀ bs, readInt .littleVarInt bs = readVarIntZigZag bs) ∧
    (∀ bs, readLong .littleVarInt bs = readVarLongZigZag bs) ∧
    (∀ bs, readArrayLen .littleVarInt bs =
      (readVarIntZigZag bs).map (fun (v, rest) => (i32AsUsize v, rest))) := by
  refine ⟨?_, ?_, fun bs => rfl, fun bs => rfl, fun bs => rfl⟩
  · intro bs U rest h hU
    have hloop := readVarIntZigZagLoop_spec bs 0 0 U rest h hU (by omega)
    rw [readVarIntZigZag, hloop]
    show Outcome.ok (toSigned 32 (zigZagFinal32 U), rest) = _
    rw [zigZagFinal32_eq U hU]
  · intro bs U rest h hU
    have hloop := readVarLongZigZagLoop_spec bs 0 0 U rest h hU
    rw [readVarLongZigZag, hloop]
    show Outcome.ok (toSigned 64 (zigZagFinal64 U), rest) = _
    rw [zigZagFinal64_eq U]

/-- C3 witness: the one-byte varint 0x01 decodes to U = 1, and the reader
yields the canonical zig-zag value -1. -/
theorem c3_zigzag_decode_canonical_witness :
    decodeVarUnsigned 32 [1] = .ok (1, []) ∧ (1 : Nat) < 2 ^ 32 ∧
    readVarIntZigZag [1] = .ok (toSigned 32 (specZigZagPattern 32 1), []) ∧
    toSigned 32 (specZigZagPattern 32 1) = -1 :=
  ⟨rfl, by norm_num, c3_zigzag_decode_canonical.1 [1] 1 [] rfl (by norm_num), by decide⟩

end RustNbt
